import Mathlib

/-!
# perf-o-meter: scope logger, report heights, duration labels and viewport layout

A shallow embedding of

* `perfometer/include/perfometer/helpers.h` (the scoped `work_logger`),
* `visualizer/src/TimeLineView.cpp` (`getRecordHeight`, `getReportHeight`,
  `formatTime`, `pixelsPerSecond`, the ruler scale, `layout` and the drawing pass
  `drawPerfometerRecord`, `drawPerfometerRecords`, `drawPerfometerReport`).

Conventions of the embedding.

* C++ `int` is `ℤ`.  Signed overflow and an out-of-range conversion to `int`
  are undefined behaviour in the source, so they have no behaviour to model;
  statements that depend on a range carry it as a hypothesis.
* C++ `double` and `float` values are the rationals they denote, and every
  arithmetic operation on them is the exact operation followed by IEEE 754
  rounding to nearest, ties to even (`binary64`, `binary32`), one rounding per
  operation.
* Mutable members become fields of a state record that is passed explicitly.
* The scroll bars are Qt objects; their range setters follow Qt's
  `QAbstractSlider`, whose `valueChanged` signal the constructor of
  `TimeLineView` connects to the two slots that write `m_offset`.
-/

/-! ## `perfometer::work_logger` -/

namespace perfometer

/-- The enumeration `zero_length_work_policy` of `helpers.h`. -/
inductive zero_length_work_policy where
  | allow
  | skip
  deriving DecidableEq, Repr

/-- Modelled from the spec: one call `log_work(name, start, end)`.  The function
is declared in `perfometer.h`, which is not among the sources; the embedding
records its arguments, which is all the destructor determines. -/
structure log_work_call (time : Type) where
  name : String
  start_time : time
  end_time : time
  deriving DecidableEq, Repr

/-- The members `m_name` and `m_start_time` of `work_logger`. -/
structure work_logger (time : Type) where
  m_name : String
  m_start_time : time

/-- The constructor `work_logger(const char name[])`; `now` is the value that its
call of `get_time()` returns. -/
def work_logger.ctor {time : Type} (name : String) (now : time) : work_logger time :=
  { m_name := name, m_start_time := now }

/-- The destructor `~work_logger()` under the template argument
`zero_length_policy`; `now` is the value that its call of `get_time()` returns and
`calls` the `log_work` calls made so far, to which it appends its own. -/
def work_logger.dtor {time : Type} [DecidableEq time]
    (zero_length_policy : zero_length_work_policy) (self : work_logger time) (now : time)
    (calls : List (log_work_call time)) : List (log_work_call time) :=
  let end_time := now
  if zero_length_policy = zero_length_work_policy.allow ∨ self.m_start_time ≠ end_time then
    calls ++ [{ name := self.m_name, start_time := self.m_start_time, end_time := end_time }]
  else
    calls

end perfometer

/-! ## The report data model -/

namespace visualizer

/-- Modelled from the spec: `Record` of `PerfometerReport.h` (not among the
sources), with the members `name`, `timeStart`, `timeEnd` and `enclosed` that
`TimeLineView.cpp` reads; the times are taken to be `double`s, the type that
`formatTime` receives. -/
inductive Record where
  | mk (name : String) (timeStart timeEnd : ℚ) (enclosed : List Record)

/-- The member `name` of a record. -/
def Record.name : Record → String
  | .mk n _ _ _ => n

/-- The member `timeStart` of a record. -/
def Record.timeStart : Record → ℚ
  | .mk _ s _ _ => s

/-- The member `timeEnd` of a record. -/
def Record.timeEnd : Record → ℚ
  | .mk _ _ e _ => e

/-- The member `enclosed` of a record. -/
def Record.enclosed : Record → List Record
  | .mk _ _ _ c => c

/-- Modelled from the spec: `Thread` of `PerfometerReport.h`, with the members
`name` and `records` that `TimeLineView.cpp` reads. -/
structure Thread where
  name : String
  records : List Record

/-- Modelled from the spec: `PerfometerReport` of `PerfometerReport.h`.
`getThreads` is the thread map as the sequence of `(id, thread)` pairs that a
range-for visits, in that order. -/
structure PerfometerReport where
  getStartTime : ℚ
  getEndTime : ℚ
  getThreads : List (ℕ × Thread)

/-! ## Constants of `TimeLineView.cpp` -/

def DefaultZoom : ℤ := 1000
def RulerHeight : ℤ := 24
def RulerDistReport : ℤ := 12
def ThreadTitleHeight : ℤ := 32
def RecordHeight : ℤ := 16
def ScrolBarThickness : ℤ := 24
def MinZoom : ℤ := 10
def PixelsPerSecond : ℤ := 128

/-! ## `getRecordHeight` and `getReportHeight` -/

mutual
/-- `TimeLineView::getRecordHeight`: run the loop over `record.enclosed` from
`recordsHeight = 0` and return `recordsHeight + 1`. -/
def getRecordHeight : Record → ℤ
  | .mk _ _ _ enclosed => getRecordHeight.loop enclosed 0 + 1
/-- The range-for of `getRecordHeight`:
`recordsHeight = std::max(recordsHeight, getRecordHeight(record))`. -/
def getRecordHeight.loop : List Record → ℤ → ℤ
  | [], recordsHeight => recordsHeight
  | record :: rest, recordsHeight =>
    getRecordHeight.loop rest (max recordsHeight (getRecordHeight record))
end

/-- The inner range-for of `getReportHeight` over `thread.records`. -/
def getReportHeight.recordsLoop : List Record → ℤ → ℤ
  | [], recordsHeight => recordsHeight
  | record :: rest, recordsHeight =>
    getReportHeight.recordsLoop rest (max recordsHeight (getRecordHeight record))

/-- The outer range-for of `getReportHeight` over `report.getThreads()`. -/
def getReportHeight.threadsLoop : List (ℕ × Thread) → ℤ → ℤ
  | [], height => height
  | it :: rest, height =>
    let thread := it.2
    let height := height + ThreadTitleHeight
    let recordsHeight := getReportHeight.recordsLoop thread.records 0
    getReportHeight.threadsLoop rest (height + recordsHeight * RecordHeight)

/-- `TimeLineView::getReportHeight`. -/
def getReportHeight (report : PerfometerReport) : ℤ :=
  getReportHeight.threadsLoop report.getThreads 0

end visualizer

/-! ## IEEE 754 arithmetic

`double` and `float` values are the rationals they denote.  An operation of the
source is the exact operation followed by `binary64` (or `binary32`): round to
nearest, ties to even, to the 53 (24) significant bits of the format, with the
format's gradual underflow.  Overflow to infinity is not modelled: no operation
of the functions below reaches `2 ^ 1024` on the inputs the statements cover. -/

namespace visualizer

/-- The halving loop of `floorLog2`; `fuel` bounds the number of halvings. -/
def floorLog2.loop : ℕ → ℕ → ℕ
  | 0, _ => 0
  | fuel + 1, n => if n < 2 then 0 else floorLog2.loop fuel (n / 2) + 1

/-- The position of the leading bit of a positive natural number. -/
def floorLog2 (n : ℕ) : ℕ := floorLog2.loop n n

/-- The binary exponent of a nonzero rational: `2 ^ binade x ≤ |x| < 2 ^ (binade x + 1)`. -/
def binade (x : ℚ) : ℤ :=
  let a : ℤ := (floorLog2 x.num.natAbs : ℤ) - (floorLog2 x.den : ℤ)
  if (2 : ℚ) ^ a ≤ |x| then a else a - 1

/-- The nearest integer, a tie going to the even one. -/
def roundHalfEven (q : ℚ) : ℤ :=
  let f := ⌊q⌋
  let r := q - f
  if r < 1 / 2 then f else if 1 / 2 < r then f + 1 else if f % 2 = 0 then f else f + 1

/-- Round to nearest, ties to even, in the binary format with `fracBits` stored
fraction bits and least normal exponent `emin`. -/
def roundTo (fracBits : ℕ) (emin : ℤ) (x : ℚ) : ℚ :=
  if x = 0 then 0 else
    let e := max (binade x) emin
    let ulp : ℚ := 2 ^ (e - (fracBits : ℤ))
    roundHalfEven (x / ulp) * ulp

/-- Rounding to `double`. -/
def binary64 (x : ℚ) : ℚ := roundTo 52 (-1022) x

/-- Rounding to `float`. -/
def binary32 (x : ℚ) : ℚ := roundTo 23 (-126) x

/-- Conversion of a floating-point value to `int`: truncation toward zero. -/
def toInt (x : ℚ) : ℤ := if 0 ≤ x then ⌊x⌋ else ⌈x⌉

/-- `std::numeric_limits<double>::epsilon()`. -/
def epsilon : ℚ := 1 / 2 ^ 52

/-- The literal `1e-6`: the double nearest to one millionth. -/
def double_1e_6 : ℚ := binary64 (1 / 10 ^ 6)

/-- The literal `1e-3`: the double nearest to one thousandth. -/
def double_1e_3 : ℚ := binary64 (1 / 10 ^ 3)

/-- The quotient `1.0/60`. -/
def double_inv_60 : ℚ := binary64 (1 / 60)

/-- The quotient `1.0/3600`. -/
def double_inv_3600 : ℚ := binary64 (1 / 3600)

/-! ## `formatTime` -/

/-- The expression `time * denom` of `formatTime`. -/
def formatTime.scaled (time denom : ℚ) : ℚ := binary64 (time * denom)

/-- The expression `static_cast<int>(time * denom)` of `formatTime`. -/
def formatTime.value (time denom : ℚ) : ℤ := toInt (formatTime.scaled time denom)

/-- The expression `time * denom - static_cast<int>(time * denom)` of `formatTime`
(the local `fract`, and the first factor of `fraction`). -/
def formatTime.fract (time denom : ℚ) : ℚ :=
  binary64 (formatTime.scaled time denom - formatTime.value time denom)

/-- The local `fraction` of `formatTime`:
`static_cast<int>((time * denom - value) * withFraction)`. -/
def formatTime.fraction (time denom : ℚ) (withFraction : ℤ) : ℤ :=
  toInt (binary64 (formatTime.fract time denom * withFraction))

/-- The argument `fract / denom` of the recursive call of `formatTime`. -/
def formatTime.remainder (time denom : ℚ) : ℚ :=
  binary64 (formatTime.fract time denom / denom)

/-- The part of `formatTime` after the unit has been chosen, from
`std::string result;` on.  `self` is the recursive call.  `snprintf` writes into
16 bytes; `"%d.%d"` is reached only with `1 ≤ time < 60`, where it writes at most
6 characters, so the buffer never truncates. -/
def formatTime.tail (self : ℚ → Option String) (time : ℚ) (suffix : String) (denom : ℚ)
    (withFraction : ℤ) (showPart : Bool) : Option String :=
  if withFraction ≠ 0 ∧ formatTime.fraction time denom withFraction ≥ 1 then
    some (toString (formatTime.value time denom) ++ "."
      ++ toString (formatTime.fraction time denom withFraction) ++ suffix)
  else
    let result := toString (formatTime.value time denom) ++ suffix
    if showPart then
      if formatTime.fract time denom ≥ denom then
        (self (formatTime.remainder time denom)).map (fun part => result ++ (" " ++ part))
      else some result
    else some result

/-- `TimeLineView::formatTime`.  The first argument bounds the depth of the
recursion; `none` is returned only when it is exhausted.  `abs` is the `double`
overload of the absolute value. -/
def formatTime : ℕ → ℚ → Option String
  | 0, _ => none
  | fuel + 1, time =>
    if time < double_1e_6 then
      if |time| < epsilon then some "0"
      else formatTime.tail (formatTime fuel) time "ns" 1000000000 0 false
    else if time < double_1e_3 then
      formatTime.tail (formatTime fuel) time "us" 1000000 0 false
    else if time < 1 then
      formatTime.tail (formatTime fuel) time "ms" 1000 0 false
    else if time < 60 then
      formatTime.tail (formatTime fuel) time "s" 1 (if time < 10 then 100 else 10) false
    else if time < 3600 then
      formatTime.tail (formatTime fuel) time "m" double_inv_60 0 true
    else
      formatTime.tail (formatTime fuel) time "h" double_inv_3600 0 true

end visualizer

/-! ## The time scale and `layout` -/

namespace visualizer

/-- `VisibleMargin = 0.1`: the double nearest to one tenth. -/
def VisibleMargin : ℚ := binary64 (1 / 10)

/-- `TimeLineView::pixelsPerSecond`: `PixelsPerSecond * 1.0f * m_zoom / DefaultZoom`,
evaluated left to right in `float`.  `float` is the rounding that follows each
`float` operation and each conversion of an `int` to `float`: `binary32` for the
machine's arithmetic, `id` for exact arithmetic. -/
def pixelsPerSecond (float : ℚ → ℚ) (m_zoom : ℤ) : ℚ :=
  float (float (float (float (PixelsPerSecond : ℚ) * 1) * float (m_zoom : ℚ))
    / float (DefaultZoom : ℚ))

/-- The local `secondsPerPixel` of `TimeLineView::drawRuler`:
`1.0f * DefaultZoom / (PixelsPerSecond * m_zoom)`, the product in the
denominator being an `int` product.  `float` is as in `pixelsPerSecond`; the
widening of the quotient to `double` is exact. -/
def secondsPerPixel (float : ℚ → ℚ) (m_zoom : ℤ) : ℚ :=
  float (float (1 * float (DefaultZoom : ℚ)) / float ((PixelsPerSecond * m_zoom : ℤ) : ℚ))

/-- `QPoint`. -/
structure QPoint where
  x : ℤ
  y : ℤ
  deriving DecidableEq, Repr

/-- The state of a `QScrollBar` that `TimeLineView` touches: the range and value
of Qt's `QAbstractSlider`, the visibility and the geometry. -/
structure QScrollBar where
  minimum : ℤ
  maximum : ℤ
  value : ℤ
  visible : Bool
  size : ℤ × ℤ
  pos : ℤ × ℤ
  deriving DecidableEq, Repr

/-- Qt's `QAbstractSlider::setRange(min, max)`: the range becomes
`[min, qMax(min, max)]`; when the range changed, the value is bounded into it,
and when that changes the value, `valueChanged(value)` is emitted (the slider is
not being dragged: its position is its value).  The result is the new bar and
the emitted value, if any. -/
def QScrollBar.setRange (bar : QScrollBar) (min max : ℤ) : QScrollBar × Option ℤ :=
  let newMin := min
  let newMax := Max.max min max
  if bar.minimum ≠ newMin ∨ bar.maximum ≠ newMax then
    let bounded := Max.max newMin (Min.min newMax bar.value)
    if bar.value = bounded then
      ({ bar with minimum := newMin, maximum := newMax }, none)
    else
      ({ bar with minimum := newMin, maximum := newMax, value := bounded }, some bounded)
  else
    (bar, none)

/-- Qt's `QAbstractSlider::setMinimum(min)`: `setRange(min, qMax(maximum, min))`. -/
def QScrollBar.setMinimum (bar : QScrollBar) (min : ℤ) : QScrollBar × Option ℤ :=
  bar.setRange min (Max.max bar.maximum min)

/-- Qt's `QAbstractSlider::setMaximum(max)`: `setRange(qMin(minimum, max), max)`. -/
def QScrollBar.setMaximum (bar : QScrollBar) (max : ℤ) : QScrollBar × Option ℤ :=
  bar.setRange (Min.min bar.minimum max) max

/-- The members of `TimeLineView` that `layout` reads or writes, with the widget
geometry `width()` and `height()`. -/
structure TimeLineView where
  m_horizontalScrollBar : QScrollBar
  m_verticalScrollBar : QScrollBar
  m_zoom : ℤ
  m_reportHeightPx : ℤ
  m_offset : QPoint
  m_report : Option PerfometerReport
  width : ℤ
  height : ℤ

/-- `TimeLineView::onHorizontalSliderChanged`; `update()` only schedules a repaint. -/
def TimeLineView.onHorizontalSliderChanged (s : TimeLineView) (value : ℤ) : TimeLineView :=
  { s with m_offset := { s.m_offset with x := value } }

/-- `TimeLineView::onVerticalSliderChanged`; `update()` only schedules a repaint. -/
def TimeLineView.onVerticalSliderChanged (s : TimeLineView) (value : ℤ) : TimeLineView :=
  { s with m_offset := { s.m_offset with y := value } }

/-- Store the horizontal bar after a range call and run the slot that the
constructor connected to its `valueChanged` signal, when the call emitted it. -/
def TimeLineView.horizontalBarChanged (s : TimeLineView) (r : QScrollBar × Option ℤ) :
    TimeLineView :=
  match r.2 with
  | none => { s with m_horizontalScrollBar := r.1 }
  | some value => TimeLineView.onHorizontalSliderChanged { s with m_horizontalScrollBar := r.1 } value

/-- Store the vertical bar after a range call and run the slot that the
constructor connected to its `valueChanged` signal, when the call emitted it. -/
def TimeLineView.verticalBarChanged (s : TimeLineView) (r : QScrollBar × Option ℤ) :
    TimeLineView :=
  match r.2 with
  | none => { s with m_verticalScrollBar := r.1 }
  | some value => TimeLineView.onVerticalSliderChanged { s with m_verticalScrollBar := r.1 } value

/-- The local `reportStartPx` of `layout`.  The conversion to `int` is defined in
the source only when the product is in the range of `int`; statements about it
carry `layout.intsInRange`. -/
def layout.reportStartPx (s : TimeLineView) (report : PerfometerReport) : ℤ :=
  toInt (binary64 (report.getStartTime * pixelsPerSecond binary32 s.m_zoom))

/-- The local `reportEndPx` of `layout`.  The conversion to `int` is defined in
the source only when the product is in the range of `int`; statements about it
carry `layout.intsInRange`. -/
def layout.reportEndPx (s : TimeLineView) (report : PerfometerReport) : ℤ :=
  toInt (binary64 (report.getEndTime * pixelsPerSecond binary32 s.m_zoom))

/-- The local `reportWidth` of `layout`: 0 without a report. -/
def layout.reportWidth (s : TimeLineView) : ℤ :=
  match s.m_report with
  | none => 0
  | some report => layout.reportEndPx s report - layout.reportStartPx s report

/-- The local `extraHeight` of `layout`:
`m_reportHeightPx * (1 + VisibleMargin / 2) - (thisHeight - RulerHeight - RulerDistReport)`
converted to `int`. -/
def layout.extraHeight (s : TimeLineView) : ℤ :=
  toInt (binary64
    (binary64 ((s.m_reportHeightPx : ℚ) * binary64 (1 + binary64 (VisibleMargin / 2)))
      - ((s.height - RulerHeight - RulerDistReport : ℤ) : ℚ)))

/-- The block `if (m_report) { ... }` of `layout`. -/
def layout.horizontal (s : TimeLineView) : TimeLineView :=
  match s.m_report with
  | none => s
  | some report =>
    let thisWidth := s.width
    let reportStartPx := layout.reportStartPx s report
    let reportEndPx := layout.reportEndPx s report
    let reportWidth := reportEndPx - reportStartPx
    let s1 :=
      if reportWidth ≤ thisWidth then
        { s with m_offset := { s.m_offset with x := 0 } }
      else
        let extraWidth := reportWidth - thisWidth
        let s2 := s.horizontalBarChanged (s.m_horizontalScrollBar.setMinimum
          (toInt (binary64 ((reportStartPx : ℚ)
            - binary64 (binary64 ((extraWidth : ℚ) * VisibleMargin) / 2)))))
        s2.horizontalBarChanged (s2.m_horizontalScrollBar.setMaximum
          (toInt (binary64 ((reportStartPx : ℚ)
            + binary64 ((extraWidth : ℚ) * binary64 (1 + binary64 (VisibleMargin / 2)))))))
    let s3 := { s1 with m_offset := { s1.m_offset with x := max s1.m_offset.x reportStartPx } }
    { s3 with m_offset := { s3.m_offset with x := min s3.m_offset.x reportEndPx } }

/-- The block `if (vertBarVisible) { ... } else { ... }` of `layout`. -/
def layout.vertical (s : TimeLineView) (extraHeight : ℤ) : TimeLineView :=
  if extraHeight > 0 then
    let s1 := { s with m_offset := { s.m_offset with y := max s.m_offset.y 0 } }
    let s2 := { s1 with m_offset := { s1.m_offset with y := min s1.m_offset.y extraHeight } }
    let s3 := s2.verticalBarChanged (s2.m_verticalScrollBar.setMinimum 0)
    s3.verticalBarChanged (s3.m_verticalScrollBar.setMaximum extraHeight)
  else
    { s with m_offset := { s.m_offset with y := 0 } }

/-- `TimeLineView::layout`. -/
def layout (s : TimeLineView) : TimeLineView :=
  let thisWidth := s.width
  let thisHeight := s.height
  let reportWidth := layout.reportWidth s
  let s1 := layout.horizontal s
  let extraHeight := layout.extraHeight s1
  let vertBarVisible : Bool := extraHeight > 0
  let horBarVisible : Bool := reportWidth > thisWidth
  let s2 := layout.vertical s1 extraHeight
  let hbar1 := { s2.m_horizontalScrollBar with
    size := (thisWidth - ScrolBarThickness, ScrolBarThickness) }
  let hbar2 := { hbar1 with pos := (0, s2.height - hbar1.size.2) }
  let vbar1 := { s2.m_verticalScrollBar with
    size := (ScrolBarThickness, thisHeight - RulerHeight - ScrolBarThickness) }
  let vbar2 := { vbar1 with pos := (thisWidth - ScrolBarThickness, RulerHeight) }
  { s2 with
    m_horizontalScrollBar := { hbar2 with visible := horBarVisible }
    m_verticalScrollBar := { vbar2 with visible := vertBarVisible } }

end visualizer

namespace visualizer

/-- A concrete widget state: no report loaded, a report height of 100 pixels, a
widget 800 wide and 36 high (so that the visible area below the ruler is 0
pixels high), a vertical offset of 200, and both scroll bars as Qt constructs
them (range `[0, 99]`, value 0). -/
def exampleView : TimeLineView :=
  { m_horizontalScrollBar :=
      { minimum := 0, maximum := 99, value := 0, visible := true, size := (0, 0), pos := (0, 0) }
    m_verticalScrollBar :=
      { minimum := 0, maximum := 99, value := 0, visible := true, size := (0, 0), pos := (0, 0) }
    m_zoom := 1000
    m_reportHeightPx := 100
    m_offset := { x := 0, y := 200 }
    m_report := none
    width := 800
    height := 36 }

end visualizer

namespace visualizer

end visualizer

/-! ## The drawing pass -/

namespace visualizer

def TitleOffsetSmall : ℤ := 2
def NumColors : ℕ := 8

/-- The array `colors` of `TimeLineView.cpp`, by the names of the Qt colours. -/
def colors : List String :=
  ["darkRed", "darkGreen", "gray", "darkYellow", "darkCyan", "darkMagenta", "lightGray",
    "darkGray"]

/-- The `QPainter` calls of the drawing pass, with their arguments (the alignment
flags, which are the same in every call, are left out). -/
inductive PaintCommand where
  | setFont (family : String) (pointSize : ℕ)
  | setPen (color : String)
  | fillRect (x y w h : ℤ) (color : String)
  | drawRect (x y w h : ℤ)
  | drawText (x y w h : ℤ) (text : String)
  deriving DecidableEq, Repr

/-- What the drawing pass changes: the position `pos` that it passes by
reference, the calls received by the painter, in order, and the number of calls
of `rand()` since the last `srand`. -/
structure DrawState where
  pos : QPoint
  painter : List PaintCommand
  randCalls : ℕ

/-- Append one call to the painter's log. -/
def DrawState.paint (st : DrawState) (c : PaintCommand) : DrawState :=
  { st with painter := st.painter ++ [c] }

/-- The text `formatTime(time)` of a label.  The depth bound 3 is reached by no
input (`formatTime_total`). -/
def formatTime.label (time : ℚ) : String := (formatTime 3 time).getD ""

mutual
/-- `TimeLineView::drawPerfometerRecord`; the result is the returned depth and
the state after the call.  `rand k` is the value of the `k`-th call of `rand()`
after `srand(0)`; `view` gives `m_zoom`. -/
def drawPerfometerRecord (rand : ℕ → ℕ) (view : TimeLineView) :
    Record → DrawState → ℤ × DrawState
  | .mk name timeStart timeEnd enclosed, st =>
    let depth : ℤ := 1
    let pixpersec := pixelsPerSecond binary32 view.m_zoom
    let x := st.pos.x + toInt (binary64 (timeStart * pixpersec))
    let y := st.pos.y
    let w := toInt (binary64 (binary64 (timeEnd - timeStart) * pixpersec))
    let st1 := st.paint
      (PaintCommand.fillRect x y w RecordHeight (colors.getD (rand st.randCalls % NumColors) ""))
    let st2 := { st1 with randCalls := st1.randCalls + 1 }
    let st3 := st2.paint (PaintCommand.drawRect x y w RecordHeight)
    let text := name ++ " " ++ formatTime.label (binary64 (timeEnd - timeStart))
    let st4 := st3.paint (PaintCommand.drawText (x + TitleOffsetSmall) y w RecordHeight text)
    let st5 := { st4 with pos := { st4.pos with y := st4.pos.y + RecordHeight } }
    let r := drawPerfometerRecords.loop rand view enclosed 0 st5
    let depth := depth + r.1
    let st6 := { r.2 with pos := { r.2.pos with y := r.2.pos.y - RecordHeight } }
    (depth, st6)
/-- The range-for of `drawPerfometerRecords`:
`depth = std::max(drawPerfometerRecord(painter, pos, record), depth)`
(`inView` is always true). -/
def drawPerfometerRecords.loop (rand : ℕ → ℕ) (view : TimeLineView) :
    List Record → ℤ → DrawState → ℤ × DrawState
  | [], depth, st => (depth, st)
  | record :: rest, depth, st =>
    let r := drawPerfometerRecord rand view record st
    drawPerfometerRecords.loop rand view rest (max r.1 depth) r.2
end

/-- `TimeLineView::drawPerfometerRecords`. -/
def drawPerfometerRecords (rand : ℕ → ℕ) (view : TimeLineView) (records : List Record)
    (st : DrawState) : ℤ × DrawState :=
  drawPerfometerRecords.loop rand view records 0 st

/-- The body of the range-for of `drawPerfometerReport`, for one entry `it` of
`report.getThreads()`. -/
def drawPerfometerReport.body (rand : ℕ → ℕ) (view : TimeLineView) (it : ℕ × Thread)
    (st : DrawState) : DrawState :=
  let thisWidth := view.width
  let thread := it.2
  let st1 := st.paint (PaintCommand.setPen "white")
  let st2 := st1.paint (PaintCommand.drawText (RulerDistReport + max 0 st1.pos.x) st1.pos.y
    thisWidth ThreadTitleHeight thread.name)
  let st3 := { st2 with pos := { st2.pos with y := st2.pos.y + ThreadTitleHeight } }
  let st4 := st3.paint (PaintCommand.setPen "black")
  let r := drawPerfometerRecords rand view thread.records st4
  let depth := r.1
  { r.2 with pos := { r.2.pos with y := r.2.pos.y + depth * RecordHeight } }

/-- The range-for of `drawPerfometerReport` over `report.getThreads()`. -/
def drawPerfometerReport.loop (rand : ℕ → ℕ) (view : TimeLineView) :
    List (ℕ × Thread) → DrawState → DrawState
  | [], st => st
  | it :: rest, st =>
    drawPerfometerReport.loop rand view rest (drawPerfometerReport.body rand view it st)

/-- `TimeLineView::drawPerfometerReport`: `srand(0)` restarts the sequence of
`rand()`. -/
def drawPerfometerReport (rand : ℕ → ℕ) (view : TimeLineView) (report : PerfometerReport)
    (st : DrawState) : DrawState :=
  let st1 := { st with randCalls := 0 }
  let st2 := st1.paint (PaintCommand.setFont "Helvetica" 10)
  drawPerfometerReport.loop rand view report.getThreads st2

end visualizer

/-! ## The range of `int` in `layout` -/

namespace visualizer

end visualizer
/-! # Theorems -/

/-! ## The scope logger (C1) -/

namespace perfometer

/-- C1: for every name, start time and end time read by a `work_logger`, the
destructor under `allow` makes exactly one call `log_work(name, start, end)`
(the call list grows by that one entry), and under `skip` it makes that one call
when `start != end` and no call at all (the call list is unchanged) when
`start == end`. -/
theorem work_logger_dtor_log_work {time : Type} [DecidableEq time]
    (name : String) (start finish : time) (calls : List (log_work_call time)) :
    work_logger.dtor zero_length_work_policy.allow (work_logger.ctor name start) finish calls
        = calls ++ [{ name := name, start_time := start, end_time := finish }]
    ∧ work_logger.dtor zero_length_work_policy.skip (work_logger.ctor name start) finish calls
        = if start = finish then calls
          else calls ++ [{ name := name, start_time := start, end_time := finish }] := by
  constructor
  · simp [work_logger.dtor, work_logger.ctor]
  · by_cases h : start = finish <;> simp [work_logger.dtor, work_logger.ctor, h]

end perfometer

/-! ## Heights (C2, C3) -/

namespace visualizer

theorem getRecordHeight_loop_eq_foldl (l : List Record) (acc : ℤ) :
    getRecordHeight.loop l acc = List.foldl max acc (l.map getRecordHeight) := by
  induction l generalizing acc with
  | nil => simp [getRecordHeight.loop]
  | cons r rs ih => simp [getRecordHeight.loop, ih]

theorem recordsLoop_eq_foldl (l : List Record) (acc : ℤ) :
    getReportHeight.recordsLoop l acc = List.foldl max acc (l.map getRecordHeight) := by
  induction l generalizing acc with
  | nil => simp [getReportHeight.recordsLoop]
  | cons r rs ih => simp [getReportHeight.recordsLoop, ih]

theorem le_foldl_max (l : List ℤ) (acc : ℤ) : acc ≤ List.foldl max acc l := by
  induction l generalizing acc with
  | nil => simp
  | cons a as ih => exact le_trans (le_max_left acc a) (ih (max acc a))

theorem one_le_getRecordHeight (r : Record) : 1 ≤ getRecordHeight r := by
  cases r with
  | mk n s e enclosed =>
    have h := le_foldl_max (enclosed.map getRecordHeight) 0
    rw [getRecordHeight, getRecordHeight_loop_eq_foldl]
    omega

/-- The loops start from 0 and heights are positive, so what they compute is the
maximum of the heights, or 0 for the empty list. -/
theorem foldl_max_zero_eq (l : List Record) :
    List.foldl max 0 (l.map getRecordHeight) = ((l.map getRecordHeight).max?).getD 0 := by
  cases l with
  | nil => simp
  | cons r rs =>
    have h := one_le_getRecordHeight r
    have h0 : max 0 (getRecordHeight r) = getRecordHeight r := max_eq_right (by omega)
    simp [List.max?, h0]

theorem threadsLoop_eq_sum (l : List (ℕ × Thread)) (height : ℤ) :
    getReportHeight.threadsLoop l height
      = height + (l.map (fun it =>
          ThreadTitleHeight
            + ((it.2.records.map getRecordHeight).max?).getD 0 * RecordHeight)).sum := by
  induction l generalizing height with
  | nil => simp [getReportHeight.threadsLoop]
  | cons it rest ih =>
    simp only [getReportHeight.threadsLoop, ih, recordsLoop_eq_foldl, foldl_max_zero_eq,
      List.map_cons, List.sum_cons]
    ring

/-- C2: `getRecordHeight` is a total function (it returns on every record tree);
it returns 1 on a record with no enclosed records, and on every record it
returns 1 plus the maximum of `getRecordHeight` over the enclosed records (the
maximum of the empty list counting as 0). -/
theorem getRecordHeight_depth (name : String) (timeStart timeEnd : ℚ) (enclosed : List Record) :
    getRecordHeight (Record.mk name timeStart timeEnd []) = 1
    ∧ getRecordHeight (Record.mk name timeStart timeEnd enclosed)
        = 1 + ((enclosed.map getRecordHeight).max?).getD 0 := by
  constructor
  · simp [getRecordHeight, getRecordHeight.loop]
  · rw [getRecordHeight, getRecordHeight_loop_eq_foldl, foldl_max_zero_eq]
    ring

/-- C3: `getReportHeight` returns the sum, over the threads in iteration order, of
`ThreadTitleHeight + M * RecordHeight` with `ThreadTitleHeight = 32`,
`RecordHeight = 16` and `M` the maximum of `getRecordHeight` over the thread's
top-level records (0 for a thread with no records); on a report with no threads
it returns 0. -/
theorem getReportHeight_sum (report : PerfometerReport) (startTime endTime : ℚ) :
    getReportHeight report
        = (report.getThreads.map (fun it =>
            32 + ((it.2.records.map getRecordHeight).max?).getD 0 * 16)).sum
    ∧ getReportHeight
        { getStartTime := startTime, getEndTime := endTime, getThreads := [] } = 0 := by
  constructor
  · rw [getReportHeight, threadsLoop_eq_sum]
    simp [ThreadTitleHeight, RecordHeight]
  · simp [getReportHeight, getReportHeight.threadsLoop]

end visualizer

/-! ## Rounding: monotonicity and granularity -/

namespace visualizer

theorem floorLog2_loop_spec (fuel n : ℕ) (hf : n ≤ fuel) (hn : n ≠ 0) :
    2 ^ floorLog2.loop fuel n ≤ n ∧ n < 2 ^ (floorLog2.loop fuel n + 1) := by
  induction fuel generalizing n with
  | zero => omega
  | succ fuel ih =>
    rw [floorLog2.loop]
    split_ifs with h
    · constructor <;> simp <;> omega
    · have h2 : n / 2 ≤ fuel := by omega
      have h3 : n / 2 ≠ 0 := by omega
      obtain ⟨h4, h5⟩ := ih (n / 2) h2 h3
      constructor
      · rw [pow_succ]; omega
      · rw [pow_succ]; omega

theorem floorLog2_spec (n : ℕ) (hn : n ≠ 0) :
    2 ^ floorLog2 n ≤ n ∧ n < 2 ^ (floorLog2 n + 1) :=
  floorLog2_loop_spec n n le_rfl hn

theorem abs_eq_natAbs_div_den (x : ℚ) : |x| = (x.num.natAbs : ℚ) / (x.den : ℚ) := by
  conv_lhs => rw [← Rat.num_div_den x]
  rw [abs_div, Nat.cast_natAbs, Int.cast_abs]
  congr 1
  exact abs_of_pos (by exact_mod_cast x.den_pos)

/-- The exponent that `binade` computes is the one of the binade that holds `x`. -/
theorem binade_spec (x : ℚ) (hx : x ≠ 0) :
    (2 : ℚ) ^ binade x ≤ |x| ∧ |x| < (2 : ℚ) ^ (binade x + 1) := by
  have hN : x.num.natAbs ≠ 0 := by
    simpa [Int.natAbs_eq_zero] using hx
  have hD : x.den ≠ 0 := x.den_nz
  obtain ⟨hN1, hN2⟩ := floorLog2_spec _ hN
  obtain ⟨hD1, hD2⟩ := floorLog2_spec _ hD
  have hN1q : (2 : ℚ) ^ floorLog2 x.num.natAbs ≤ (x.num.natAbs : ℚ) := by exact_mod_cast hN1
  have hN2q : (x.num.natAbs : ℚ) < (2 : ℚ) ^ (floorLog2 x.num.natAbs + 1) := by
    exact_mod_cast hN2
  have hD1q : (2 : ℚ) ^ floorLog2 x.den ≤ (x.den : ℚ) := by exact_mod_cast hD1
  have hD2q : (x.den : ℚ) < (2 : ℚ) ^ (floorLog2 x.den + 1) := by exact_mod_cast hD2
  have hDpos : (0 : ℚ) < x.den := by exact_mod_cast x.den_pos
  have hpa : (0 : ℚ) < 2 ^ floorLog2 x.num.natAbs := by positivity
  have hpd : (0 : ℚ) < 2 ^ floorLog2 x.den := by positivity
  have habs := abs_eq_natAbs_div_den x
  have e1 : (2 : ℚ) ^ ((floorLog2 x.num.natAbs : ℤ) - (floorLog2 x.den : ℤ))
      = 2 ^ floorLog2 x.num.natAbs / 2 ^ floorLog2 x.den := by
    rw [zpow_sub₀ (by norm_num), zpow_natCast, zpow_natCast]
  unfold binade
  simp only []
  split_ifs with h
  · refine ⟨h, ?_⟩
    rw [zpow_add_one₀ (by norm_num), e1, habs, div_mul_eq_mul_div, div_lt_div_iff₀ hDpos hpd]
    rw [pow_succ] at hN2q
    nlinarith
  · constructor
    · rw [zpow_sub_one₀ (by norm_num), e1, habs, div_mul_eq_mul_div, div_le_div_iff₀ hpd hDpos]
      rw [pow_succ] at hD2q
      nlinarith
    · rw [sub_add_cancel]
      exact lt_of_not_le h

theorem binade_neg (x : ℚ) : binade (-x) = binade x := by
  simp [binade]

theorem binade_mono {x y : ℚ} (hx : 0 < x) (hxy : x ≤ y) : binade x ≤ binade y := by
  have hy : 0 < y := lt_of_lt_of_le hx hxy
  have h1 := (binade_spec x hx.ne').1
  have h2 := (binade_spec y hy.ne').2
  rw [abs_of_pos hx] at h1
  rw [abs_of_pos hy] at h2
  have h3 : (2 : ℚ) ^ binade x < 2 ^ (binade y + 1) := lt_of_le_of_lt (le_trans h1 hxy) h2
  have h4 := (zpow_lt_zpow_iff_right₀ (by norm_num : (1 : ℚ) < 2)).1 h3
  omega

theorem roundHalfEven_intCast (n : ℤ) : roundHalfEven (n : ℚ) = n := by
  simp [roundHalfEven]

theorem floor_le_roundHalfEven (q : ℚ) : ⌊q⌋ ≤ roundHalfEven q := by
  unfold roundHalfEven
  simp only []
  split_ifs <;> omega

theorem roundHalfEven_le_floor_add_one (q : ℚ) : roundHalfEven q ≤ ⌊q⌋ + 1 := by
  unfold roundHalfEven
  simp only []
  split_ifs <;> omega

theorem roundHalfEven_mono {a b : ℚ} (h : a ≤ b) : roundHalfEven a ≤ roundHalfEven b := by
  have hf : ⌊a⌋ ≤ ⌊b⌋ := Int.floor_mono h
  rcases lt_or_eq_of_le hf with hlt | heq
  · calc roundHalfEven a ≤ ⌊a⌋ + 1 := roundHalfEven_le_floor_add_one a
      _ ≤ ⌊b⌋ := hlt
      _ ≤ roundHalfEven b := floor_le_roundHalfEven b
  · unfold roundHalfEven
    simp only []
    rw [heq]
    have hr : a - (⌊b⌋ : ℚ) ≤ b - (⌊b⌋ : ℚ) := by linarith
    split_ifs <;> first | omega | (exfalso; linarith)

theorem roundHalfEven_neg (q : ℚ) : roundHalfEven (-q) = - roundHalfEven q := by
  by_cases hq : (⌊q⌋ : ℚ) = q
  · rw [← hq, ← Int.cast_neg, roundHalfEven_intCast, roundHalfEven_intCast]
  · have h1 : (⌊q⌋ : ℚ) < q := lt_of_le_of_ne (Int.floor_le q) hq
    have h2 : q < ⌊q⌋ + 1 := Int.lt_floor_add_one q
    have h3 : ⌊-q⌋ = -⌊q⌋ - 1 := by
      rw [Int.floor_eq_iff]
      push_cast
      constructor <;> linarith
    unfold roundHalfEven
    simp only []
    rw [h3]
    push_cast
    split_ifs <;> first | omega | (exfalso; linarith)

theorem roundTo_zero (m : ℕ) (emin : ℤ) : roundTo m emin 0 = 0 := by
  simp [roundTo]

theorem roundTo_neg (m : ℕ) (emin : ℤ) (x : ℚ) : roundTo m emin (-x) = - roundTo m emin x := by
  unfold roundTo
  by_cases hx : x = 0
  · simp [hx]
  · have hx2 : -x ≠ 0 := neg_ne_zero.2 hx
    rw [if_neg hx, if_neg hx2]
    simp only [binade_neg, neg_div, roundHalfEven_neg, Int.cast_neg, neg_mul]

/-- A positive number rounds to at most the top of its binade. -/
theorem roundTo_le_pow (m : ℕ) (emin : ℤ) {x : ℚ} (hx : 0 < x) :
    roundTo m emin x ≤ 2 ^ (max (binade x) emin + 1) := by
  unfold roundTo
  rw [if_neg hx.ne']
  simp only []
  set e := max (binade x) emin with he
  have hu : (0 : ℚ) < 2 ^ (e - (m : ℤ)) := by positivity
  have h2 := (binade_spec x hx.ne').2
  rw [abs_of_pos hx] at h2
  have h3 : x ≤ 2 ^ (e + 1) :=
    le_trans h2.le (zpow_le_zpow_right₀ (by norm_num)
      (by have := le_max_left (binade x) emin; omega))
  have h4 : (2 : ℚ) ^ (e + 1) = ((2 ^ (m + 1) : ℤ) : ℚ) * 2 ^ (e - (m : ℤ)) := by
    push_cast
    rw [← zpow_natCast, ← zpow_add₀ (by norm_num)]
    congr 1
    push_cast
    ring
  have h5 : x / 2 ^ (e - (m : ℤ)) ≤ ((2 ^ (m + 1) : ℤ) : ℚ) := by
    rw [div_le_iff₀ hu, ← h4]
    exact h3
  have h6 := roundHalfEven_mono h5
  rw [roundHalfEven_intCast] at h6
  rw [h4]
  exact mul_le_mul_of_nonneg_right (by exact_mod_cast h6) hu.le

/-- A positive number of the normal range rounds to at least the bottom of its
binade. -/
theorem pow_le_roundTo (m : ℕ) (emin : ℤ) {x : ℚ} (hx : 0 < x) (hn : emin ≤ binade x) :
    (2 : ℚ) ^ binade x ≤ roundTo m emin x := by
  unfold roundTo
  rw [if_neg hx.ne']
  simp only []
  rw [max_eq_left hn]
  set e := binade x with he
  have hu : (0 : ℚ) < 2 ^ (e - (m : ℤ)) := by positivity
  have h2 := (binade_spec x hx.ne').1
  rw [abs_of_pos hx] at h2
  have h4 : (2 : ℚ) ^ e = ((2 ^ m : ℤ) : ℚ) * 2 ^ (e - (m : ℤ)) := by
    push_cast
    rw [← zpow_natCast, ← zpow_add₀ (by norm_num)]
    congr 1
    ring
  have h5 : ((2 ^ m : ℤ) : ℚ) ≤ x / 2 ^ (e - (m : ℤ)) := by
    rw [le_div_iff₀ hu, ← h4]
    exact h2
  have h6 := roundHalfEven_mono h5
  rw [roundHalfEven_intCast] at h6
  rw [h4]
  exact mul_le_mul_of_nonneg_right (by exact_mod_cast h6) hu.le

theorem roundTo_nonneg (m : ℕ) (emin : ℤ) {x : ℚ} (hx : 0 ≤ x) : 0 ≤ roundTo m emin x := by
  unfold roundTo
  split_ifs with h
  · exact le_rfl
  · simp only []
    have hu : (0 : ℚ) < 2 ^ (max (binade x) emin - (m : ℤ)) := by positivity
    have h1 : ((0 : ℤ) : ℚ) ≤ x / 2 ^ (max (binade x) emin - (m : ℤ)) := by
      simpa using div_nonneg hx hu.le
    have h2 := roundHalfEven_mono h1
    rw [roundHalfEven_intCast] at h2
    exact mul_nonneg (by exact_mod_cast h2) hu.le

theorem roundTo_mono_pos (m : ℕ) (emin : ℤ) {x y : ℚ} (hx : 0 < x) (hxy : x ≤ y) :
    roundTo m emin x ≤ roundTo m emin y := by
  have hy : 0 < y := lt_of_lt_of_le hx hxy
  have hb := binade_mono hx hxy
  rcases lt_or_eq_of_le (max_le_max hb (le_refl emin)) with hlt | heq
  · have hn : emin ≤ binade y := by
      by_contra hc
      have h1 : max (binade y) emin = emin := max_eq_right (by omega)
      have h2 := le_max_right (binade x) emin
      omega
    have h1 : max (binade y) emin = binade y := max_eq_left hn
    calc roundTo m emin x ≤ 2 ^ (max (binade x) emin + 1) := roundTo_le_pow m emin hx
      _ ≤ 2 ^ binade y := zpow_le_zpow_right₀ (by norm_num) (by omega)
      _ ≤ roundTo m emin y := pow_le_roundTo m emin hy hn
  · unfold roundTo
    rw [if_neg hx.ne', if_neg hy.ne']
    simp only []
    rw [heq]
    have hu : (0 : ℚ) < 2 ^ (max (binade y) emin - (m : ℤ)) := by positivity
    have h1 := roundHalfEven_mono (div_le_div_of_nonneg_right hxy hu.le)
    exact mul_le_mul_of_nonneg_right (by exact_mod_cast h1) hu.le

theorem roundTo_mono_nonneg (m : ℕ) (emin : ℤ) {x y : ℚ} (hx : 0 ≤ x) (hxy : x ≤ y) :
    roundTo m emin x ≤ roundTo m emin y := by
  rcases lt_or_eq_of_le hx with h | h
  · exact roundTo_mono_pos m emin h hxy
  · rw [← h, roundTo_zero]
    exact roundTo_nonneg m emin (le_trans hx hxy)

/-- Rounding to nearest is monotone. -/
theorem roundTo_mono (m : ℕ) (emin : ℤ) {x y : ℚ} (hxy : x ≤ y) :
    roundTo m emin x ≤ roundTo m emin y := by
  rcases le_total 0 x with hx | hx
  · exact roundTo_mono_nonneg m emin hx hxy
  · rcases le_total 0 y with hy | hy
    · have h1 := roundTo_nonneg m emin (neg_nonneg.2 hx)
      rw [roundTo_neg] at h1
      have h2 := roundTo_nonneg m emin hy
      linarith
    · have h1 := roundTo_mono_nonneg m emin (neg_nonneg.2 hy) (neg_le_neg hxy)
      rw [roundTo_neg, roundTo_neg] at h1
      linarith

/-- A value of at least 1 rounds to a multiple of `2 ^ (-fracBits)`. -/
theorem roundTo_granular (m : ℕ) (emin : ℤ) {x : ℚ} (hx : 1 ≤ x) :
    ∃ k : ℤ, roundTo m emin x = (k : ℚ) / 2 ^ m := by
  have hx0 : 0 < x := lt_of_lt_of_le one_pos hx
  have h2 := (binade_spec x hx0.ne').2
  rw [abs_of_pos hx0] at h2
  have h3 : (2 : ℚ) ^ (0 : ℤ) < 2 ^ (binade x + 1) := by
    rw [zpow_zero]; exact lt_of_le_of_lt hx h2
  have h4 := (zpow_lt_zpow_iff_right₀ (by norm_num : (1 : ℚ) < 2)).1 h3
  have h5 : 0 ≤ max (binade x) emin := le_trans (by omega) (le_max_left _ _)
  obtain ⟨n, hn⟩ := Int.eq_ofNat_of_zero_le h5
  refine ⟨roundHalfEven (x / 2 ^ (max (binade x) emin - (m : ℤ))) * 2 ^ n, ?_⟩
  unfold roundTo
  rw [if_neg hx0.ne']
  simp only []
  rw [hn, zpow_sub₀ (by norm_num), zpow_natCast, zpow_natCast]
  push_cast
  ring

theorem binary64_mono {x y : ℚ} (hxy : x ≤ y) : binary64 x ≤ binary64 y :=
  roundTo_mono 52 (-1022) hxy

theorem binary64_nonneg {x : ℚ} (hx : 0 ≤ x) : 0 ≤ binary64 x :=
  roundTo_nonneg 52 (-1022) hx

theorem binary32_mono {x y : ℚ} (hxy : x ≤ y) : binary32 x ≤ binary32 y :=
  roundTo_mono 23 (-126) hxy

theorem binary64_one : binary64 1 = 1 := by decide!

/-- A double that is at least 1 is a multiple of `2 ^ (-52)`. -/
theorem binary64_granular {x : ℚ} (h : 1 ≤ binary64 x) :
    ∃ k : ℤ, binary64 x = (k : ℚ) / 2 ^ 52 := by
  rcases le_or_lt 1 x with hx | hx
  · exact roundTo_granular 52 (-1022) hx
  · have h1 : binary64 x ≤ 1 := by
      have := binary64_mono hx.le
      rwa [binary64_one] at this
    refine ⟨2 ^ 52, ?_⟩
    rw [le_antisymm h1 h]
    norm_num

/-! ### Conversion to `int` -/

theorem toInt_of_nonneg {x : ℚ} (hx : 0 ≤ x) : toInt x = ⌊x⌋ := by
  simp [toInt, hx]

end visualizer

namespace visualizer

/-! ## Duration labels (C4 to C7) -/

theorem epsilon_lt_double_1e_6 : epsilon < double_1e_6 := by decide!
theorem double_1e_6_lt_double_1e_3 : double_1e_6 < double_1e_3 := by decide!
theorem double_1e_3_lt_one : double_1e_3 < 1 := by decide!
theorem double_inv_60_pos : 0 < double_inv_60 := by decide!
theorem double_inv_3600_pos : 0 < double_inv_3600 := by decide!
theorem scaled_60 : binary64 (60 * double_inv_60) = 1 := by decide!
theorem scaled_3600 : binary64 (3600 * double_inv_3600) = 1 := by decide!
theorem binary64_below_one : binary64 ((2 ^ 52 - 1) / 2 ^ 52) = (2 ^ 52 - 1) / 2 ^ 52 := by decide!
theorem remainder_60_lt : binary64 ((2 ^ 52 - 1) / 2 ^ 52 / double_inv_60) < 60 := by decide!
theorem remainder_3600_lt : binary64 ((2 ^ 52 - 1) / 2 ^ 52 / double_inv_3600) < 3600 := by decide!
theorem fraction_100_lt : binary64 ((2 ^ 52 - 1) / 2 ^ 52 * 100) < 100 := by decide!
theorem fraction_10_lt : binary64 ((2 ^ 52 - 1) / 2 ^ 52 * 10) < 10 := by decide!

theorem formatTime_tail_plain (self : ℚ → Option String) (time : ℚ) (suffix : String)
    (denom : ℚ) :
    formatTime.tail self time suffix denom 0 false
      = some (toString (formatTime.value time denom) ++ suffix) := by
  simp [formatTime.tail]

/-- Once the scaled time is at least 1, its fractional part is a double in
`[0, 1 - 2 ^ (-52)]`. -/
theorem fract_bounds (time denom : ℚ) (hp : 1 ≤ formatTime.scaled time denom) :
    0 ≤ formatTime.fract time denom
      ∧ formatTime.fract time denom ≤ (2 ^ 52 - 1) / 2 ^ 52 := by
  obtain ⟨k, hk⟩ := binary64_granular hp
  have hp0 : 0 ≤ formatTime.scaled time denom := le_trans zero_le_one hp
  have hv : formatTime.value time denom = ⌊formatTime.scaled time denom⌋ :=
    toInt_of_nonneg hp0
  have h1 := Int.floor_le (formatTime.scaled time denom)
  have h2 := Int.lt_floor_add_one (formatTime.scaled time denom)
  have h3 : formatTime.scaled time denom - formatTime.value time denom
      ≤ (2 ^ 52 - 1) / 2 ^ 52 := by
    rw [hv]
    have hk2 : formatTime.scaled time denom = (k : ℚ) / 2 ^ 52 := hk
    have h4 : ((k - ⌊formatTime.scaled time denom⌋ * 2 ^ 52 : ℤ) : ℚ) < ((2 ^ 52 : ℤ) : ℚ) := by
      push_cast
      rw [hk2] at h2 ⊢
      rw [div_lt_iff₀ (by positivity)] at h2
      linarith
    have h5 : k - ⌊formatTime.scaled time denom⌋ * 2 ^ 52 ≤ 2 ^ 52 - 1 := by
      have := Int.cast_lt.1 h4
      omega
    have h6 : ((k - ⌊formatTime.scaled time denom⌋ * 2 ^ 52 : ℤ) : ℚ) ≤ ((2 ^ 52 - 1 : ℤ) : ℚ) :=
      Int.cast_le.2 h5
    push_cast at h6
    rw [le_div_iff₀ (by positivity)]
    rw [hk2] at h6 ⊢
    have h7 : (k : ℚ) / 2 ^ 52 * 2 ^ 52 = k := by field_simp
    linarith
  constructor
  · apply binary64_nonneg
    rw [hv]
    linarith
  · have := binary64_mono h3
    rwa [binary64_below_one] at this

end visualizer

namespace visualizer

theorem toString_length_one (f : ℤ) (h1 : 1 ≤ f) (h2 : f ≤ 9) : (toString f).length = 1 := by
  interval_cases f <;> rfl

theorem toString_length_two (f : ℤ) (h1 : 10 ≤ f) (h2 : f ≤ 99) : (toString f).length = 2 := by
  interval_cases f <;> rfl

theorem formatTime_tail_noPart (self : ℚ → Option String) (time : ℚ) (suffix : String)
    (denom : ℚ) (withFraction : ℤ) :
    formatTime.tail self time suffix denom withFraction false
      = if withFraction ≠ 0 ∧ formatTime.fraction time denom withFraction ≥ 1 then
          some (toString (formatTime.value time denom) ++ "."
            ++ toString (formatTime.fraction time denom withFraction) ++ suffix)
        else some (toString (formatTime.value time denom) ++ suffix) := by
  unfold formatTime.tail
  simp only [Bool.false_eq_true, if_false]

theorem formatTime_seconds_unfold (n : ℕ) (t : ℚ) (h1 : 1 ≤ t) (h2 : t < 60) :
    formatTime (n + 1) t
      = formatTime.tail (formatTime n) t "s" 1 (if t < 10 then 100 else 10) false := by
  have a1 : ¬ t < double_1e_6 := not_lt.2
    (le_trans (le_trans double_1e_6_lt_double_1e_3.le double_1e_3_lt_one.le) h1)
  have a2 : ¬ t < double_1e_3 := not_lt.2 (le_trans double_1e_3_lt_one.le h1)
  have a3 : ¬ t < 1 := not_lt.2 h1
  rw [formatTime, if_neg a1, if_neg a2, if_neg a3, if_pos h2]

/-- On `[1, 60)` a result is produced with any positive depth bound. -/
theorem formatTime_seconds_some (n : ℕ) (t : ℚ) (h1 : 1 ≤ t) (h2 : t < 60) :
    ∃ s, formatTime (n + 1) t = some s := by
  rw [formatTime_seconds_unfold n t h1 h2, formatTime_tail_noPart]
  split_ifs <;> exact ⟨_, rfl⟩

theorem fraction_bounds (t : ℚ) (withFraction : ℤ) (hw : 0 ≤ withFraction)
    (hp : 1 ≤ formatTime.scaled t 1) :
    0 ≤ formatTime.fraction t 1 withFraction
      ∧ (formatTime.fraction t 1 withFraction : ℚ)
          ≤ binary64 ((2 ^ 52 - 1) / 2 ^ 52 * withFraction) := by
  obtain ⟨f0, f1⟩ := fract_bounds t 1 hp
  have hw2 : (0 : ℚ) ≤ withFraction := by exact_mod_cast hw
  have h3 : 0 ≤ binary64 (formatTime.fract t 1 * withFraction) :=
    binary64_nonneg (mul_nonneg f0 hw2)
  have h4 : binary64 (formatTime.fract t 1 * withFraction)
      ≤ binary64 ((2 ^ 52 - 1) / 2 ^ 52 * withFraction) :=
    binary64_mono (mul_le_mul_of_nonneg_right f1 hw2)
  unfold formatTime.fraction
  rw [toInt_of_nonneg h3]
  exact ⟨Int.floor_nonneg.2 h3, le_trans (Int.floor_le _) h4⟩


/-- C7: for every duration `t` with `0 ≤ t < 1` the unit is chosen by magnitude:
the result is `"0"` below the machine epsilon; otherwise it is the integer part
of the double product `t * 10^9` followed by `"ns"` when `t < 1e-6`, the integer
part of `t * 10^6` followed by `"us"` when `1e-6 ≤ t < 1e-3`, and the integer part
of `t * 10^3` followed by `"ms"` when `1e-3 ≤ t < 1`; in particular
`formatTime(0) = "0"` and `formatTime(5e-7) = "500ns"`.  Every positive depth
bound gives the result. -/
theorem formatTime_subsecond (n : ℕ) (t : ℚ) (h0 : 0 ≤ t) (h1 : t < 1) :
    formatTime (n + 1) t
        = some (if t < epsilon then "0"
            else if t < double_1e_6 then
              toString (toInt (binary64 (t * 1000000000))) ++ "ns"
            else if t < double_1e_3 then
              toString (toInt (binary64 (t * 1000000))) ++ "us"
            else toString (toInt (binary64 (t * 1000))) ++ "ms")
    ∧ formatTime (n + 1) 0 = some "0"
    ∧ formatTime (n + 1) (binary64 (5 / 10 ^ 7)) = some "500ns" := by
  have key : ∀ u : ℚ, 0 ≤ u → u < 1 → formatTime (n + 1) u
        = some (if u < epsilon then "0"
            else if u < double_1e_6 then
              toString (toInt (binary64 (u * 1000000000))) ++ "ns"
            else if u < double_1e_3 then
              toString (toInt (binary64 (u * 1000000))) ++ "us"
            else toString (toInt (binary64 (u * 1000))) ++ "ms") := by
    intro u hu0 hu1
    rw [formatTime]
    by_cases ha : u < double_1e_6
    · rw [if_pos ha, abs_of_nonneg hu0]
      by_cases hb : u < epsilon
      · rw [if_pos hb, if_pos hb]
      · rw [if_neg hb, if_neg hb, if_pos ha, formatTime_tail_plain]
        rfl
    · have hb : ¬ u < epsilon := fun h => ha (lt_trans h epsilon_lt_double_1e_6)
      rw [if_neg ha, if_neg hb, if_neg ha]
      by_cases hc : u < double_1e_3
      · rw [if_pos hc, if_pos hc, formatTime_tail_plain]
        rfl
      · rw [if_neg hc, if_neg hc, if_pos hu1, formatTime_tail_plain]
        rfl
  refine ⟨key t h0 h1, ?_, ?_⟩
  · rw [key 0 le_rfl one_pos]
    decide!
  · rw [key (binary64 (5 / 10 ^ 7)) (by decide!) (by decide!)]
    decide!

/-- The hypotheses of `formatTime_subsecond` hold at a quarter of a second, which
is labelled `"250ms"`. -/
theorem formatTime_subsecond_witness :
    (0 : ℚ) ≤ 1 / 4 ∧ (1 / 4 : ℚ) < 1 ∧ formatTime 1 (1 / 4) = some "250ms" :=
  ⟨by norm_num, by norm_num,
    (formatTime_subsecond 0 (1 / 4) (by norm_num) (by norm_num)).1.trans (by decide!)⟩

end visualizer

namespace visualizer

/-- A multiple of `2 ^ (-52)` in `[0, 1)` is a double. -/
theorem binary64_fract_exact (k : ℤ) (h0 : 0 ≤ k) (h1 : k < 2 ^ 52) :
    binary64 ((k : ℚ) / 2 ^ 52) = (k : ℚ) / 2 ^ 52 := by
  rcases eq_or_lt_of_le h0 with hk | hk
  · rw [← hk]; simp [binary64, roundTo]
  have hkq : (1 : ℚ) ≤ k := by exact_mod_cast hk
  have hkq2 : (k : ℚ) < 2 ^ 52 := by exact_mod_cast h1
  have hx0 : (0 : ℚ) < (k : ℚ) / 2 ^ 52 := by positivity
  have hx1 : (k : ℚ) / 2 ^ 52 < 1 := by
    rw [div_lt_one (by positivity)]; exact hkq2
  have hx2 : (2 : ℚ) ^ (-52 : ℤ) ≤ (k : ℚ) / 2 ^ 52 := by
    rw [zpow_neg, le_div_iff₀ (by positivity)]
    have : ((2 : ℚ) ^ (52 : ℤ))⁻¹ * 2 ^ 52 = 1 := by norm_num
    linarith
  obtain ⟨b1, b2⟩ := binade_spec _ hx0.ne'
  rw [abs_of_pos hx0] at b1 b2
  have hb1 : binade ((k : ℚ) / 2 ^ 52) < 0 := by
    have h : (2 : ℚ) ^ binade ((k : ℚ) / 2 ^ 52) < 2 ^ (0 : ℤ) := by
      rw [zpow_zero]; exact lt_of_le_of_lt b1 hx1
    exact (zpow_lt_zpow_iff_right₀ (by norm_num : (1 : ℚ) < 2)).1 h
  have hb2 : -52 < binade ((k : ℚ) / 2 ^ 52) + 1 :=
    (zpow_lt_zpow_iff_right₀ (by norm_num : (1 : ℚ) < 2)).1 (lt_of_le_of_lt hx2 b2)
  obtain ⟨n, hn⟩ := Int.eq_ofNat_of_zero_le (show 0 ≤ - binade ((k : ℚ) / 2 ^ 52) by omega)
  have hb : binade ((k : ℚ) / 2 ^ 52) = -(n : ℤ) := by omega
  unfold binary64 roundTo
  rw [if_neg hx0.ne']
  simp only []
  rw [max_eq_left (by omega), hb]
  have hu : (2 : ℚ) ^ (-(n : ℤ) - ((52 : ℕ) : ℤ)) = 1 / (2 ^ n * 2 ^ 52) := by
    rw [zpow_sub₀ (by norm_num), zpow_neg, zpow_natCast, zpow_natCast]
    field_simp
  have hdiv : (k : ℚ) / 2 ^ 52 / (2 : ℚ) ^ (-(n : ℤ) - ((52 : ℕ) : ℤ)) = ((k * 2 ^ n : ℤ) : ℚ) := by
    rw [hu]
    push_cast
    field_simp
    ring
  rw [hdiv, roundHalfEven_intCast, hu]
  push_cast
  field_simp
  ring

theorem formatTime_tail_part (self : ℚ → Option String) (time : ℚ) (suffix : String)
    (denom : ℚ) :
    formatTime.tail self time suffix denom 0 true
      = if formatTime.fract time denom ≥ denom then
          (self (formatTime.remainder time denom)).map
            (fun part => toString (formatTime.value time denom) ++ suffix ++ (" " ++ part))
        else some (toString (formatTime.value time denom) ++ suffix) := by
  simp [formatTime.tail]

theorem formatTime_minutes_unfold (n : ℕ) (t : ℚ) (h1 : 60 ≤ t) (h2 : t < 3600) :
    formatTime (n + 1) t = formatTime.tail (formatTime n) t "m" double_inv_60 0 true := by
  have a3 : ¬ t < 1 := not_lt.2 (le_trans (by norm_num) h1)
  have a2 : ¬ t < double_1e_3 := fun h => a3 (lt_trans h double_1e_3_lt_one)
  have a1 : ¬ t < double_1e_6 := fun h => a2 (lt_trans h double_1e_6_lt_double_1e_3)
  have a4 : ¬ t < 60 := not_lt.2 h1
  rw [formatTime, if_neg a1, if_neg a2, if_neg a3, if_neg a4, if_pos h2]

theorem formatTime_hours_unfold (n : ℕ) (t : ℚ) (h1 : 3600 ≤ t) :
    formatTime (n + 1) t = formatTime.tail (formatTime n) t "h" double_inv_3600 0 true := by
  have a3 : ¬ t < 1 := not_lt.2 (le_trans (by norm_num) h1)
  have a2 : ¬ t < double_1e_3 := fun h => a3 (lt_trans h double_1e_3_lt_one)
  have a1 : ¬ t < double_1e_6 := fun h => a2 (lt_trans h double_1e_6_lt_double_1e_3)
  have a4 : ¬ t < 60 := not_lt.2 (le_trans (by norm_num) h1)
  have a5 : ¬ t < 3600 := not_lt.2 h1
  rw [formatTime, if_neg a1, if_neg a2, if_neg a3, if_neg a4, if_neg a5]

/-- The remainder passed to the recursive call lies in `[1, bound)` as soon as
the scaled time is at least 1 and the fractional part reaches `denom`. -/
theorem remainder_bounds (t denom bound : ℚ) (hd : 0 < denom)
    (hb : binary64 ((2 ^ 52 - 1) / 2 ^ 52 / denom) < bound)
    (hp : 1 ≤ formatTime.scaled t denom) (hf : denom ≤ formatTime.fract t denom) :
    1 ≤ formatTime.remainder t denom ∧ formatTime.remainder t denom < bound := by
  obtain ⟨_, f1⟩ := fract_bounds t denom hp
  constructor
  · have h := binary64_mono ((one_le_div hd).2 hf)
    rwa [binary64_one] at h
  · exact lt_of_le_of_lt (binary64_mono (div_le_div_of_nonneg_right f1 hd.le)) hb

theorem scaled_minutes_ge_one (t : ℚ) (h1 : 60 ≤ t) : 1 ≤ formatTime.scaled t double_inv_60 := by
  have h := binary64_mono (mul_le_mul_of_nonneg_right h1 double_inv_60_pos.le)
  rwa [scaled_60] at h

theorem scaled_hours_ge_one (t : ℚ) (h1 : 3600 ≤ t) :
    1 ≤ formatTime.scaled t double_inv_3600 := by
  have h := binary64_mono (mul_le_mul_of_nonneg_right h1 double_inv_3600_pos.le)
  rwa [scaled_3600] at h

/-- The minutes branch: what `formatTime` returns on `[60, 3600)`. -/
theorem formatTime_minutes_aux (n : ℕ) (t : ℚ) (h1 : 60 ≤ t) (h2 : t < 3600) :
    (formatTime.fract t double_inv_60 < double_inv_60 →
        formatTime (n + 2) t = some (toString (formatTime.value t double_inv_60) ++ "m"))
    ∧ (double_inv_60 ≤ formatTime.fract t double_inv_60 →
        1 ≤ formatTime.remainder t double_inv_60
        ∧ formatTime.remainder t double_inv_60 < 60
        ∧ ∃ s, formatTime (n + 1) (formatTime.remainder t double_inv_60) = some s
            ∧ formatTime (n + 2) t
                = some (toString (formatTime.value t double_inv_60) ++ "m" ++ " " ++ s)) := by
  rw [formatTime_minutes_unfold (n + 1) t h1 h2, formatTime_tail_part]
  constructor
  · intro hf
    rw [if_neg (not_le.2 hf)]
  · intro hf
    obtain ⟨r1, r2⟩ := remainder_bounds t double_inv_60 60 double_inv_60_pos remainder_60_lt
      (scaled_minutes_ge_one t h1) hf
    obtain ⟨s, hs⟩ := formatTime_seconds_some n _ r1 r2
    refine ⟨r1, r2, s, hs, ?_⟩
    rw [if_pos hf, hs, Option.map_some', String.append_assoc _ " " s]

/-- Below an hour a result is produced with any depth bound of at least 2. -/
theorem formatTime_below_hour_some (n : ℕ) (t : ℚ) (h1 : 1 ≤ t) (h2 : t < 3600) :
    ∃ s, formatTime (n + 2) t = some s := by
  rcases lt_or_le t 60 with h | h
  · exact formatTime_seconds_some (n + 1) t h1 h
  · obtain ⟨a, b⟩ := formatTime_minutes_aux n t h h2
    rcases lt_or_le (formatTime.fract t double_inv_60) double_inv_60 with hf | hf
    · exact ⟨_, a hf⟩
    · obtain ⟨_, _, s, _, hs⟩ := b hf
      exact ⟨_, hs⟩

end visualizer

namespace visualizer

theorem formatTime_tail_mono (self self2 : ℚ → Option String)
    (h : ∀ u s, self u = some s → self2 u = some s)
    (time : ℚ) (suffix : String) (denom : ℚ) (withFraction : ℤ) (showPart : Bool) (s : String)
    (hs : formatTime.tail self time suffix denom withFraction showPart = some s) :
    formatTime.tail self2 time suffix denom withFraction showPart = some s := by
  unfold formatTime.tail at hs ⊢
  split_ifs at hs ⊢ with c1 c2 c3
  · exact hs
  · simp only [] at hs ⊢
    cases hr : self (formatTime.remainder time denom) with
    | none => rw [hr] at hs; simp at hs
    | some part => rw [hr] at hs; rw [h _ _ hr]; exact hs
  · exact hs
  · exact hs

/-- A larger depth bound does not change a result. -/
theorem formatTime_fuel_succ (m : ℕ) :
    ∀ (t : ℚ) (s : String), formatTime m t = some s → formatTime (m + 1) t = some s := by
  induction m with
  | zero => intro t s h; simp [formatTime] at h
  | succ m ih =>
    intro t s h
    rw [formatTime] at h ⊢
    split_ifs at h ⊢
    · exact h
    all_goals exact formatTime_tail_mono _ _ ih _ _ _ _ _ _ h

theorem formatTime_fuel_add (m k : ℕ) (t : ℚ) (s : String) (h : formatTime m t = some s) :
    formatTime (k + m) t = some s := by
  induction k with
  | zero => rwa [Nat.zero_add]
  | succ k ih => rw [Nat.add_right_comm]; exact formatTime_fuel_succ _ _ _ ih

theorem seconds_parts (t : ℚ) (hd : binary64 t = t) (h1 : 1 ≤ t) :
    formatTime.scaled t 1 = t ∧ formatTime.value t 1 = ⌊t⌋
      ∧ formatTime.fract t 1 = t - ⌊t⌋ := by
  have hs : formatTime.scaled t 1 = t := by
    unfold formatTime.scaled; rw [mul_one, hd]
  have h0 : 0 ≤ t := le_trans zero_le_one h1
  have hv : formatTime.value t 1 = ⌊t⌋ := by
    unfold formatTime.value; rw [hs, toInt_of_nonneg h0]
  refine ⟨hs, hv, ?_⟩
  obtain ⟨k, hk⟩ := binary64_granular (x := t) (by rw [hd]; exact h1)
  rw [hd] at hk
  have e1 : t - ⌊t⌋ = ((k - ⌊t⌋ * 2 ^ 52 : ℤ) : ℚ) / 2 ^ 52 := by
    have hk2 : (k : ℚ) = t * 2 ^ 52 := by rw [hk]; field_simp
    rw [eq_div_iff (by positivity)]
    push_cast
    rw [hk2]
    ring
  have f1 := Int.floor_le t
  have f2 := Int.lt_floor_add_one t
  have e2 : 0 ≤ k - ⌊t⌋ * 2 ^ 52 := by
    have : (0 : ℚ) ≤ ((k - ⌊t⌋ * 2 ^ 52 : ℤ) : ℚ) / 2 ^ 52 := by rw [← e1]; linarith
    have h3 := (div_nonneg_iff.1 this)
    rcases h3 with ⟨a, _⟩ | ⟨_, b⟩
    · exact_mod_cast a
    · exact absurd b (by norm_num)
  have e3 : k - ⌊t⌋ * 2 ^ 52 < 2 ^ 52 := by
    have : ((k - ⌊t⌋ * 2 ^ 52 : ℤ) : ℚ) / 2 ^ 52 < 1 := by rw [← e1]; linarith
    rw [div_lt_one (by positivity)] at this
    exact_mod_cast this
  unfold formatTime.fract
  rw [hs, hv, e1]
  exact binary64_fract_exact _ e2 e3

end visualizer

namespace visualizer

/-- A value of at least `2 ^ j` rounds to a multiple of `2 ^ j / 2 ^ fracBits`. -/
theorem roundTo_granular_pow (m : ℕ) (emin : ℤ) (j : ℕ) {x : ℚ} (hx : (2 : ℚ) ^ j ≤ x) :
    ∃ k : ℤ, roundTo m emin x = (k : ℚ) * 2 ^ j / 2 ^ m := by
  have hx0 : 0 < x := lt_of_lt_of_le (by positivity) hx
  have h2 := (binade_spec x hx0.ne').2
  rw [abs_of_pos hx0] at h2
  have h3 : (2 : ℚ) ^ (j : ℤ) < 2 ^ (binade x + 1) := by
    rw [zpow_natCast]; exact lt_of_le_of_lt hx h2
  have h4 := (zpow_lt_zpow_iff_right₀ (by norm_num : (1 : ℚ) < 2)).1 h3
  have h5 : 0 ≤ max (binade x) emin - (j : ℤ) := by
    have := le_max_left (binade x) emin
    omega
  obtain ⟨n, hn⟩ := Int.eq_ofNat_of_zero_le h5
  have he : max (binade x) emin - (m : ℤ) = (n : ℤ) + (j : ℤ) - (m : ℤ) := by omega
  refine ⟨roundHalfEven (x / 2 ^ (max (binade x) emin - (m : ℤ))) * 2 ^ n, ?_⟩
  unfold roundTo
  rw [if_neg hx0.ne']
  simp only []
  rw [he, zpow_sub₀ (by norm_num), zpow_add₀ (by norm_num), zpow_natCast, zpow_natCast,
    zpow_natCast]
  push_cast
  ring

end visualizer

namespace visualizer

theorem binade_eq {x : ℚ} {b : ℤ} (h1 : (2 : ℚ) ^ b ≤ x) (h2 : x < (2 : ℚ) ^ (b + 1)) :
    binade x = b := by
  have hx0 : 0 < x := lt_of_lt_of_le (by positivity) h1
  obtain ⟨s1, s2⟩ := binade_spec x hx0.ne'
  rw [abs_of_pos hx0] at s1 s2
  have a1 := (zpow_lt_zpow_iff_right₀ (by norm_num : (1 : ℚ) < 2)).1 (lt_of_le_of_lt s1 h2)
  have a2 := (zpow_lt_zpow_iff_right₀ (by norm_num : (1 : ℚ) < 2)).1 (lt_of_le_of_lt h1 s2)
  omega

theorem roundHalfEven_eq_of_near_below (N : ℤ) (q : ℚ) (h1 : (N : ℚ) - 1 / 2 < q)
    (h2 : q ≤ N) : roundHalfEven q = N := by
  rcases eq_or_lt_of_le h2 with h | h
  · rw [h, roundHalfEven_intCast]
  · have hf : ⌊q⌋ = N - 1 := by
      rw [Int.floor_eq_iff]
      push_cast
      constructor <;> linarith
    unfold roundHalfEven
    simp only []
    rw [hf]
    push_cast
    split_ifs <;> first | omega | (exfalso; linarith)

theorem roundHalfEven_le_of_lt_half (N : ℤ) (q : ℚ) (h : q < (N : ℚ) - 1 / 2) :
    roundHalfEven q ≤ N - 1 := by
  have hf : ⌊q⌋ ≤ N - 1 := by
    have : ⌊q⌋ < N := Int.floor_lt.2 (by linarith)
    omega
  rcases lt_or_eq_of_le hf with h1 | h1
  · have := roundHalfEven_le_floor_add_one q
    omega
  · have hr : q - (⌊q⌋ : ℚ) < 1 / 2 := by
      rw [h1]; push_cast; linarith
    unfold roundHalfEven
    simp only []
    rw [if_pos hr]
    exact hf

/-- A number just below a small positive integer rounds to that integer. -/
theorem binary64_near_below (M : ℕ) (hM1 : 1 ≤ M) (hM2 : M < 2 ^ 52) (x : ℚ)
    (h1 : (M : ℚ) - M / 2 ^ 55 ≤ x) (h2 : x ≤ M) : binary64 x = M := by
  have hMq : (1 : ℚ) ≤ M := by exact_mod_cast hM1
  have hMq2 : (M : ℚ) < 2 ^ 52 := by exact_mod_cast hM2
  have hx0 : 0 < x := by
    have : (M : ℚ) / 2 ^ 55 ≤ M / 2 := by
      apply div_le_div_of_nonneg_left <;> norm_num
    linarith
  have hxhalf : (M : ℚ) / 2 ≤ x := by
    have : (M : ℚ) / 2 ^ 55 ≤ M / 2 := by
      apply div_le_div_of_nonneg_left <;> norm_num
    linarith
  obtain ⟨m1, m2⟩ := binade_spec (M : ℚ) (by positivity)
  rw [abs_of_pos (by positivity)] at m1 m2
  obtain ⟨s1, s2⟩ := binade_spec x hx0.ne'
  rw [abs_of_pos hx0] at s1 s2
  -- the binade of `x` is that of `M` or the one below
  have b1 : binade x ≤ binade (M : ℚ) := by
    have := (zpow_lt_zpow_iff_right₀ (by norm_num : (1 : ℚ) < 2)).1
      (lt_of_le_of_lt (le_trans s1 h2) m2)
    omega
  have b2 : binade (M : ℚ) - 1 ≤ binade x := by
    have h3 : (2 : ℚ) ^ (binade (M : ℚ) - 1) ≤ M / 2 := by
      rw [zpow_sub_one₀ (by norm_num), div_eq_mul_inv]
      exact mul_le_mul_of_nonneg_right m1 (by norm_num)
    have := (zpow_lt_zpow_iff_right₀ (by norm_num : (1 : ℚ) < 2)).1
      (lt_of_le_of_lt (le_trans h3 hxhalf) s2)
    omega
  have b3 : 0 ≤ binade (M : ℚ) := by
    have h3 : (2 : ℚ) ^ (0 : ℤ) < 2 ^ (binade (M : ℚ) + 1) := by
      rw [zpow_zero]; exact lt_of_le_of_lt hMq m2
    have := (zpow_lt_zpow_iff_right₀ (by norm_num : (1 : ℚ) < 2)).1 h3
    omega
  have b4 : binade (M : ℚ) < 52 := by
    have h3 : (2 : ℚ) ^ binade (M : ℚ) < 2 ^ (52 : ℤ) := by
      refine lt_of_le_of_lt m1 ?_
      rw [show (52 : ℤ) = ((52 : ℕ) : ℤ) from rfl, zpow_natCast]
      exact hMq2
    exact (zpow_lt_zpow_iff_right₀ (by norm_num : (1 : ℚ) < 2)).1 h3
  obtain ⟨n, hn⟩ := Int.eq_ofNat_of_zero_le (show 0 ≤ 52 - binade x by omega)
  have hb : binade x = 52 - (n : ℤ) := by omega
  have hu : (2 : ℚ) ^ (binade x - ((52 : ℕ) : ℤ)) = 1 / 2 ^ n := by
    rw [hb, show (52 : ℤ) - (n : ℤ) - ((52 : ℕ) : ℤ) = -(n : ℤ) by push_cast; ring, zpow_neg,
      zpow_natCast, one_div]
  have hpn : (0 : ℚ) < 2 ^ n := by positivity
  -- `M < 2 ^ (binade x + 2)`, so `M * 2 ^ n < 2 ^ 54`
  have hMn : (M : ℚ) * 2 ^ n < 2 ^ 54 := by
    have h3 : (M : ℚ) < 2 ^ (binade x + 2) :=
      lt_of_lt_of_le m2 (zpow_le_zpow_right₀ (by norm_num) (by omega))
    have h4 : (2 : ℚ) ^ (binade x + 2) * 2 ^ n = 2 ^ 54 := by
      rw [hb, ← zpow_natCast, ← zpow_add₀ (by norm_num)]
      rw [show (52 : ℤ) - (n : ℤ) + 2 + (n : ℤ) = ((54 : ℕ) : ℤ) by push_cast; ring, zpow_natCast]
    calc (M : ℚ) * 2 ^ n < 2 ^ (binade x + 2) * 2 ^ n := mul_lt_mul_of_pos_right h3 hpn
      _ = 2 ^ 54 := h4
  have hq : roundHalfEven (x / (1 / 2 ^ n)) = ((M * 2 ^ n : ℕ) : ℤ) := by
    apply roundHalfEven_eq_of_near_below
    · push_cast
      rw [div_div_eq_mul_div, div_one]
      have h5 : ((M : ℚ) - M / 2 ^ 55) * 2 ^ n ≤ x * 2 ^ n :=
        mul_le_mul_of_nonneg_right h1 hpn.le
      have h6 : (M : ℚ) / 2 ^ 55 * 2 ^ n < 1 / 2 := by
        rw [div_mul_eq_mul_div, div_lt_iff₀ (by positivity)]
        have : (1 : ℚ) / 2 * 2 ^ 55 = 2 ^ 54 := by norm_num
        linarith
      linarith
    · push_cast
      rw [div_div_eq_mul_div, div_one]
      exact mul_le_mul_of_nonneg_right h2 hpn.le
  unfold binary64 roundTo
  rw [if_neg hx0.ne']
  simp only []
  rw [max_eq_left (by omega), hu, hq]
  push_cast
  field_simp

/-- A number more than half a unit in the last place below a positive integer
`M` rounds below `M`; `b` is the exponent of the binade that ends at `M`. -/
theorem binary64_lt_int (M : ℕ) (n : ℕ) (b : ℕ) (hbn : b + n = 52)
    (hM1 : (2 : ℚ) ^ b < M) (hM2 : (M : ℚ) ≤ 2 ^ (b + 1)) (x : ℚ)
    (hx : x < (M : ℚ) - 1 / 2 ^ n / 2) : binary64 x < M := by
  have hMpos : (0 : ℚ) < M := lt_trans (by positivity) hM1
  rcases lt_or_le x ((2 : ℚ) ^ b) with hlt | hge
  · rcases le_or_lt x 0 with h0 | h0
    · have := binary64_mono h0
      have hz : binary64 0 = 0 := roundTo_zero 52 (-1022)
      rw [hz] at this
      linarith
    · obtain ⟨s1, s2⟩ := binade_spec x h0.ne'
      rw [abs_of_pos h0] at s1 s2
      have hb : binade x < (b : ℤ) := by
        have h3 : (2 : ℚ) ^ binade x < 2 ^ (b : ℤ) := by
          rw [zpow_natCast]; exact lt_of_le_of_lt s1 hlt
        exact (zpow_lt_zpow_iff_right₀ (by norm_num : (1 : ℚ) < 2)).1 h3
      have h4 : binary64 x ≤ 2 ^ (max (binade x) (-1022) + 1) := roundTo_le_pow 52 (-1022) h0
      have h5 : (2 : ℚ) ^ (max (binade x) (-1022) + 1) ≤ 2 ^ (b : ℤ) :=
        zpow_le_zpow_right₀ (by norm_num) (by omega)
      rw [zpow_natCast] at h5
      linarith
  · have hxM : x < M := by
      have : (0 : ℚ) < 1 / 2 ^ n / 2 := by positivity
      linarith
    have hbin : binade x = (b : ℤ) := by
      apply binade_eq
      · rw [zpow_natCast]; exact hge
      · rw [show (b : ℤ) + 1 = ((b + 1 : ℕ) : ℤ) by push_cast; ring, zpow_natCast]
        exact lt_of_lt_of_le hxM hM2
    have hx0 : 0 < x := lt_of_lt_of_le (by positivity) hge
    have hu : (2 : ℚ) ^ ((b : ℤ) - ((52 : ℕ) : ℤ)) = 1 / 2 ^ n := by
      rw [show (b : ℤ) - ((52 : ℕ) : ℤ) = -(n : ℤ) by push_cast; omega, zpow_neg, zpow_natCast,
        one_div]
    have hpn : (0 : ℚ) < 2 ^ n := by positivity
    have hq : roundHalfEven (x / (1 / 2 ^ n)) ≤ ((M * 2 ^ n : ℕ) : ℤ) - 1 := by
      apply roundHalfEven_le_of_lt_half
      push_cast
      rw [div_div_eq_mul_div, div_one]
      have h5 : x * 2 ^ n < ((M : ℚ) - 1 / 2 ^ n / 2) * 2 ^ n :=
        mul_lt_mul_of_pos_right hx hpn
      have h6 : ((M : ℚ) - 1 / 2 ^ n / 2) * 2 ^ n = M * 2 ^ n - 1 / 2 := by
        field_simp
        ring
      linarith
    unfold binary64 roundTo
    rw [if_neg hx0.ne']
    simp only []
    rw [hbin, max_eq_left (by omega), hu]
    have hq2 : (roundHalfEven (x / (1 / 2 ^ n)) : ℚ) ≤ (M : ℚ) * 2 ^ n - 1 := by
      exact_mod_cast hq
    have h7 : (roundHalfEven (x / (1 / 2 ^ n)) : ℚ) * (1 / 2 ^ n)
        ≤ ((M : ℚ) * 2 ^ n - 1) * (1 / 2 ^ n) :=
      mul_le_mul_of_nonneg_right hq2 (by positivity)
    have h8 : ((M : ℚ) * 2 ^ n - 1) * (1 / 2 ^ n) = M - 1 / 2 ^ n := by
      field_simp
    have h9 : (0 : ℚ) < 1 / 2 ^ n := by positivity
    linarith

end visualizer

namespace visualizer

/-- The integer part of the scaled time is the whole number of units: for a unit
of `c` seconds with `2 ^ a ≤ c`, a scale `d` just below `1 / c`, and a double
`t ≥ c` whose unit count is below `2 ^ 31`, `static_cast<int>(t * d)` is
`⌊t / c⌋`. -/
theorem value_eq_floor (c a : ℕ) (d : ℚ) (hc : 2 ^ a ≤ c) (ha2 : a ≤ 21) (hd0 : 0 < d)
    (hcd1 : (c : ℚ) * d ≤ 1) (hcd2 : 1 - 1 / 2 ^ 55 ≤ (c : ℚ) * d)
    (ha : 1 < (2 : ℚ) ^ (a + 1) * d)
    (t : ℚ) (hd : binary64 t = t) (h1 : (c : ℚ) ≤ t) (hfit : t < (c : ℚ) * 2 ^ 31) :
    formatTime.value t d = ⌊t / c⌋ := by
  have hcpos : (0 : ℚ) < c := by
    have : 0 < c := lt_of_lt_of_le (by positivity) hc
    exact_mod_cast this
  have hcq : (2 : ℚ) ^ a ≤ c := by exact_mod_cast hc
  have hm1 : 1 ≤ ⌊t / c⌋ := Int.le_floor.2 (by push_cast; rw [le_div_iff₀ hcpos]; linarith)
  have hm2 : ⌊t / c⌋ < 2 ^ 31 :=
    Int.floor_lt.2 (by push_cast; rw [div_lt_iff₀ hcpos]; linarith)
  obtain ⟨mn, hmn⟩ := Int.eq_ofNat_of_zero_le (le_trans zero_le_one hm1)
  have hmn1 : 1 ≤ mn := by omega
  have hmn2 : mn < 2 ^ 31 := by omega
  have f1 := Int.floor_le (t / c)
  have f2 := Int.lt_floor_add_one (t / c)
  rw [hmn] at f1 f2 ⊢
  have hlo : (c : ℚ) * mn ≤ t := by
    rw [le_div_iff₀ hcpos] at f1; push_cast at f1; linarith
  have hhi : t < (c : ℚ) * (mn + 1) := by
    rw [div_lt_iff₀ hcpos] at f2; push_cast at f2; linarith
  have hmq1 : (1 : ℚ) ≤ mn := by exact_mod_cast hmn1
  -- lower bound
  have hlow : ((mn : ℕ) : ℚ) ≤ formatTime.scaled t d := by
    have e1 : binary64 ((c : ℚ) * mn * d) = mn := by
      apply binary64_near_below mn hmn1 (lt_trans hmn2 (by norm_num))
      · have : (mn : ℚ) * (1 - 1 / 2 ^ 55) ≤ mn * ((c : ℚ) * d) :=
          mul_le_mul_of_nonneg_left hcd2 (by linarith)
        have e : (mn : ℚ) - mn / 2 ^ 55 = mn * (1 - 1 / 2 ^ 55) := by ring
        rw [e]; linarith
      · have : (mn : ℚ) * ((c : ℚ) * d) ≤ mn * 1 :=
          mul_le_mul_of_nonneg_left hcd1 (by linarith)
        linarith
    have := binary64_mono (mul_le_mul_of_nonneg_right hlo hd0.le)
    rw [e1] at this
    exact this
  -- the binade of the unit count
  obtain ⟨s1, s2⟩ := binade_spec (mn : ℚ) (by positivity)
  rw [abs_of_pos (by positivity)] at s1 s2
  have hB0 : 0 ≤ binade (mn : ℚ) := by
    have h3 : (2 : ℚ) ^ (0 : ℤ) < 2 ^ (binade (mn : ℚ) + 1) := by
      rw [zpow_zero]; exact lt_of_le_of_lt hmq1 s2
    have := (zpow_lt_zpow_iff_right₀ (by norm_num : (1 : ℚ) < 2)).1 h3
    omega
  obtain ⟨bn, hbn⟩ := Int.eq_ofNat_of_zero_le hB0
  rw [hbn, zpow_natCast] at s1
  rw [hbn, show (bn : ℤ) + 1 = ((bn + 1 : ℕ) : ℤ) by push_cast; ring, zpow_natCast] at s2
  have s1n : 2 ^ bn ≤ mn := by exact_mod_cast s1
  have s2n : mn < 2 ^ (bn + 1) := by exact_mod_cast s2
  have hbn30 : bn < 31 := by
    have : 2 ^ bn < 2 ^ 31 := lt_of_le_of_lt s1n hmn2
    exact (Nat.pow_lt_pow_iff_right (by norm_num)).1 this
  obtain ⟨i, hi⟩ : ∃ i : ℕ, 52 = (a + bn) + i := ⟨52 - (a + bn), by omega⟩
  -- granularity of `t`
  have hj : (2 : ℚ) ^ (a + bn) ≤ t := by
    rw [pow_add]
    calc (2 : ℚ) ^ a * 2 ^ bn ≤ c * mn := mul_le_mul hcq s1 (by positivity) hcpos.le
      _ ≤ t := hlo
  obtain ⟨k, hk⟩ := roundTo_granular_pow 52 (-1022) (a + bn) hj
  have hk2 : t = (k : ℚ) * 2 ^ (a + bn) / 2 ^ 52 := by
    have : binary64 t = (k : ℚ) * 2 ^ (a + bn) / 2 ^ 52 := hk
    rwa [hd] at this
  have hp : (2 : ℚ) ^ 52 = 2 ^ (a + bn) * 2 ^ i := by rw [hi, pow_add]
  have hpi : (0 : ℚ) < 2 ^ i := by positivity
  have ht : t = (k : ℚ) / 2 ^ i := by
    rw [hk2, hp]; field_simp; ring
  have hlt : (k : ℚ) < (c : ℚ) * (mn + 1) * 2 ^ i := by
    rw [ht, div_lt_iff₀ hpi] at hhi; exact hhi
  have hlt2 : k < (c : ℤ) * (mn + 1) * 2 ^ i := by exact_mod_cast hlt
  have hle : (k : ℚ) + 1 ≤ (c : ℚ) * (mn + 1) * 2 ^ i := by
    have : k + 1 ≤ (c : ℤ) * (mn + 1) * 2 ^ i := by omega
    exact_mod_cast this
  have hup : t ≤ (c : ℚ) * (mn + 1) - 1 / 2 ^ i := by
    rw [ht, le_sub_iff_add_le, ← add_div, div_le_iff₀ hpi]
    exact hle
  -- upper bound
  have hupp : formatTime.scaled t d < ((mn + 1 : ℕ) : ℚ) := by
    apply binary64_lt_int (mn + 1) (a + i) bn (by omega)
    · push_cast; linarith
    · have : mn + 1 ≤ 2 ^ (bn + 1) := by omega
      exact_mod_cast this
    · have e1 : t * d ≤ ((c : ℚ) * (mn + 1) - 1 / 2 ^ i) * d :=
        mul_le_mul_of_nonneg_right hup hd0.le
      have e2 : ((c : ℚ) * (mn + 1) - 1 / 2 ^ i) * d
          = ((mn : ℚ) + 1) * ((c : ℚ) * d) - d / 2 ^ i := by ring
      have e3 : ((mn : ℚ) + 1) * ((c : ℚ) * d) ≤ ((mn : ℚ) + 1) * 1 :=
        mul_le_mul_of_nonneg_left hcd1 (by linarith)
      have e4 : (1 : ℚ) / 2 ^ (a + i) / 2 < d / 2 ^ i := by
        rw [div_div, div_lt_div_iff₀ (by positivity) hpi]
        have : (2 : ℚ) ^ (a + i) * 2 = 2 ^ (a + 1) * 2 ^ i := by
          rw [pow_add, pow_add]; ring
        rw [this]
        have := mul_lt_mul_of_pos_right ha hpi
        linarith
      push_cast
      linarith
  have h0 : 0 ≤ formatTime.scaled t d := le_trans (by positivity) hlow
  unfold formatTime.value
  rw [toInt_of_nonneg h0, Int.floor_eq_iff]
  refine ⟨by exact_mod_cast hlow, ?_⟩
  have : ((mn + 1 : ℕ) : ℚ) = (((mn : ℕ) : ℤ) : ℚ) + 1 := by push_cast; ring
  rw [← this]
  exact hupp

theorem minutes_scale_facts :
    ((60 : ℕ) : ℚ) * double_inv_60 ≤ 1 ∧ 1 - 1 / 2 ^ 55 ≤ ((60 : ℕ) : ℚ) * double_inv_60
      ∧ 1 < (2 : ℚ) ^ (5 + 1) * double_inv_60 := by
  decide!

theorem hours_scale_facts :
    ((3600 : ℕ) : ℚ) * double_inv_3600 ≤ 1
      ∧ 1 - 1 / 2 ^ 55 ≤ ((3600 : ℕ) : ℚ) * double_inv_3600
      ∧ 1 < (2 : ℚ) ^ (11 + 1) * double_inv_3600 := by
  decide!

/-- On doubles in `[60, 3600)` the minute count is the whole number of minutes. -/
theorem minutes_value_eq_floor (t : ℚ) (hd : binary64 t = t) (h1 : 60 ≤ t) (h2 : t < 3600) :
    formatTime.value t double_inv_60 = ⌊t / 60⌋ := by
  have h := value_eq_floor 60 5 double_inv_60 (by norm_num) (by norm_num) double_inv_60_pos
    minutes_scale_facts.1 minutes_scale_facts.2.1 minutes_scale_facts.2.2 t hd
    (by push_cast; exact h1) (by push_cast; linarith)
  simpa using h

/-- On doubles from 3600 on whose hour count fits an `int`, the hour count is the
whole number of hours. -/
theorem hours_value_eq_floor (t : ℚ) (hd : binary64 t = t) (h1 : 3600 ≤ t)
    (h2 : t < 3600 * 2 ^ 31) :
    formatTime.value t double_inv_3600 = ⌊t / 3600⌋ := by
  have h := value_eq_floor 3600 11 double_inv_3600 (by norm_num) (by norm_num)
    double_inv_3600_pos hours_scale_facts.1 hours_scale_facts.2.1 hours_scale_facts.2.2 t hd
    (by push_cast; exact h1) (by push_cast; linarith)
  simpa using h

end visualizer

namespace visualizer

/-- Counterexample to C4: `formatTime(45)` is `"45s"`, with no decimal digit, and
not the `"45.0s"` of the claim: the truncated fraction is 0, so the guard
`fraction >= 1` sends the call to the plain integer output. -/
theorem formatTime_45_no_decimal :
    formatTime 3 45 = some "45s" ∧ formatTime 3 45 ≠ some "45.0s" := by
  decide!

/-- C4, amended: for every double `t` with `1 ≤ t < 60`, let `f` be the integer
part of the double product of the fractional part `t - ⌊t⌋` and `W`, where
`W = 100` for `t < 10` and `W = 10` otherwise.  When `f = 0` the label is the
integer part of `t` followed by `"s"`, with no decimal point
(`formatTime(45) = "45s"`).  When `t ≥ 10` and `f ≥ 1` it is the integer part, a
point, `f` and `"s"`, and `f` is exactly one decimal digit.  When `t < 10` and
`f ≥ 10` it is the integer part, a point, `f` and `"s"`, and `f` is exactly two
decimal digits (`formatTime(1.5) = "1.50s"`).  Every positive depth bound gives
the result. -/
theorem formatTime_seconds (n : ℕ) (t : ℚ) (hd : binary64 t = t) (h1 : 1 ≤ t) (h2 : t < 60) :
    (toInt (binary64 ((t - ⌊t⌋) * (if t < 10 then 100 else 10))) = 0 →
        formatTime (n + 1) t = some (toString ⌊t⌋ ++ "s"))
    ∧ (10 ≤ t → 1 ≤ toInt (binary64 ((t - ⌊t⌋) * 10)) →
        formatTime (n + 1) t
            = some (toString ⌊t⌋ ++ "." ++ toString (toInt (binary64 ((t - ⌊t⌋) * 10))) ++ "s")
          ∧ (toString (toInt (binary64 ((t - ⌊t⌋) * 10)))).length = 1)
    ∧ (t < 10 → 10 ≤ toInt (binary64 ((t - ⌊t⌋) * 100)) →
        formatTime (n + 1) t
            = some (toString ⌊t⌋ ++ "." ++ toString (toInt (binary64 ((t - ⌊t⌋) * 100))) ++ "s")
          ∧ (toString (toInt (binary64 ((t - ⌊t⌋) * 100)))).length = 2)
    ∧ formatTime (n + 1) (3 / 2) = some "1.50s"
    ∧ formatTime (n + 1) 45 = some "45s" := by
  obtain ⟨hs, hv, hfr⟩ := seconds_parts t hd h1
  have hp : 1 ≤ formatTime.scaled t 1 := by rw [hs]; exact h1
  have hfn : ∀ w : ℤ, formatTime.fraction t 1 w = toInt (binary64 ((t - ⌊t⌋) * w)) := by
    intro w; unfold formatTime.fraction; rw [hfr]
  rw [formatTime_seconds_unfold n t h1 h2, formatTime_tail_noPart, hv]
  refine ⟨?_, ?_, ?_, ?_, ?_⟩
  · intro hz
    have hz2 : formatTime.fraction t 1 (if t < 10 then 100 else 10) = 0 := by
      rw [hfn]
      by_cases c : t < 10
      · rw [if_pos c] at hz ⊢; exact_mod_cast hz
      · rw [if_neg c] at hz ⊢; exact_mod_cast hz
    rw [if_neg]
    rw [hz2]
    intro h
    exact absurd h.2 (by norm_num)
  · intro c hf
    rw [if_neg (not_lt.2 c), hfn]
    have hf2 : 1 ≤ toInt (binary64 ((t - ⌊t⌋) * ((10 : ℤ) : ℚ))) := by exact_mod_cast hf
    have hb := (fraction_bounds t 10 (by norm_num) hp).2
    rw [hfn] at hb
    have hlt : ((toInt (binary64 ((t - ⌊t⌋) * ((10 : ℤ) : ℚ))) : ℤ) : ℚ) < ((10 : ℤ) : ℚ) := by
      have := fraction_10_lt
      push_cast at hb ⊢
      linarith
    have hle : toInt (binary64 ((t - ⌊t⌋) * ((10 : ℤ) : ℚ))) ≤ 9 := by
      have := Int.cast_lt.1 hlt
      omega
    rw [if_pos ⟨by norm_num, hf2⟩]
    push_cast at hf2 hle ⊢
    exact ⟨rfl, toString_length_one _ hf2 hle⟩
  · intro c hf
    rw [if_pos c, hfn]
    have hf2 : 10 ≤ toInt (binary64 ((t - ⌊t⌋) * ((100 : ℤ) : ℚ))) := by exact_mod_cast hf
    have hb := (fraction_bounds t 100 (by norm_num) hp).2
    rw [hfn] at hb
    have hlt : ((toInt (binary64 ((t - ⌊t⌋) * ((100 : ℤ) : ℚ))) : ℤ) : ℚ) < ((100 : ℤ) : ℚ) := by
      have := fraction_100_lt
      push_cast at hb ⊢
      linarith
    have hle : toInt (binary64 ((t - ⌊t⌋) * ((100 : ℤ) : ℚ))) ≤ 99 := by
      have := Int.cast_lt.1 hlt
      omega
    rw [if_pos ⟨by norm_num, by omega⟩]
    push_cast at hf2 hle ⊢
    exact ⟨rfl, toString_length_two _ hf2 hle⟩
  · have := formatTime_fuel_add 1 n (3 / 2) "1.50s" (by decide!)
    exact this
  · have := formatTime_fuel_add 1 n 45 "45s" (by decide!)
    exact this

/-- The hypotheses of `formatTime_seconds` hold at one and a half seconds, a
double, which is labelled `"1.50s"`. -/
theorem formatTime_seconds_witness :
    binary64 (3 / 2) = 3 / 2 ∧ (1 : ℚ) ≤ 3 / 2 ∧ (3 / 2 : ℚ) < 60
      ∧ formatTime 1 (3 / 2) = some "1.50s" :=
  ⟨by decide!, by norm_num, by norm_num,
    (formatTime_seconds 0 (3 / 2) (by decide!) (by norm_num) (by norm_num)).2.2.2.1⟩

end visualizer

namespace visualizer

/-- Counterexample to C6: at `t = 61` the remaining seconds are exactly one second,
yet `formatTime(61)` is `"1m"` with no seconds part.  In double arithmetic
`1.0/60` is below one sixtieth, the product `61 * (1.0/60)` rounds to a double
below `61/60`, and its fractional part is below `1.0/60`, so the test
`fract >= denom` fails.  (`formatTime(3661) = "1h 1m"` drops the same second.) -/
theorem formatTime_61_drops_second :
    (1 : ℚ) ≤ 61 - 60 * ⌊(61 : ℚ) / 60⌋
      ∧ formatTime.fract 61 double_inv_60 < double_inv_60
      ∧ formatTime 3 61 = some "1m" := by
  decide!

/-- C6, amended: for every double `t` with `60 ≤ t < 3600`, the label starts with
the whole number of minutes `⌊t / 60⌋` followed by `"m"`.  Let `f` be the
fractional part of the double product `t * (1.0/60)` and `r = f / (1.0/60)` the
remainder in seconds, in double arithmetic.  When `f < 1.0/60` nothing more
follows.  When `f ≥ 1.0/60` (the remaining seconds are at least one second, up
to the rounding of double arithmetic) the remainder satisfies `1 ≤ r < 60`, so
that it is formatted in seconds, and a single space and the label of `r` follow.
In particular `formatTime(90) = "1m 30s"`, while `formatTime(61) = "1m"`.  Every
depth bound of at least 2 gives the result. -/
theorem formatTime_minutes (n : ℕ) (t : ℚ) (hd : binary64 t = t) (h1 : 60 ≤ t)
    (h2 : t < 3600) :
    formatTime.value t double_inv_60 = ⌊t / 60⌋
    ∧ (formatTime.fract t double_inv_60 < double_inv_60 →
        formatTime (n + 2) t = some (toString ⌊t / 60⌋ ++ "m"))
    ∧ (double_inv_60 ≤ formatTime.fract t double_inv_60 →
        1 ≤ formatTime.remainder t double_inv_60
        ∧ formatTime.remainder t double_inv_60 < 60
        ∧ ∃ s, formatTime (n + 1) (formatTime.remainder t double_inv_60) = some s
            ∧ formatTime (n + 2) t = some (toString ⌊t / 60⌋ ++ "m" ++ " " ++ s))
    ∧ formatTime (n + 2) 90 = some "1m 30s"
    ∧ formatTime (n + 2) 61 = some "1m" := by
  have hv := minutes_value_eq_floor t hd h1 h2
  obtain ⟨a, b⟩ := formatTime_minutes_aux n t h1 h2
  rw [hv] at a b
  exact ⟨hv, a, b, formatTime_fuel_add 2 n 90 "1m 30s" (by decide!),
    formatTime_fuel_add 2 n 61 "1m" (by decide!)⟩

/-- The hypotheses of `formatTime_minutes` hold at ninety seconds, which is
labelled `"1m 30s"`. -/
theorem formatTime_minutes_witness :
    binary64 90 = 90 ∧ (60 : ℚ) ≤ 90 ∧ (90 : ℚ) < 3600
      ∧ formatTime 2 90 = some "1m 30s" :=
  ⟨by decide!, by norm_num, by norm_num,
    (formatTime_minutes 0 90 (by decide!) (by norm_num) (by norm_num)).2.2.2.1⟩

/-- Counterexample to C5: `formatTime(3750)` is `"1h 2m 30s"`, not of the form
`"<H>h <M>m"`: the remainder of 150 seconds is handed to `formatTime` itself,
which labels it `"2m 30s"`.  Likewise `formatTime(3632)` is `"1h 32s"`: a
remainder below a minute is expressed in seconds, not in minutes. -/
theorem formatTime_3750_three_parts :
    formatTime 3 3750 = some "1h 2m 30s" ∧ formatTime 3 3750 ≠ some "1h 2m"
      ∧ formatTime 3 3632 = some "1h 32s" := by
  decide!

/-- C5, amended: for every double `t ≥ 3600` whose hour count fits an `int`, the
label starts with the whole number of hours `⌊t / 3600⌋` followed by `"h"`.  Let
`f` be the fractional part of the double product `t * (1.0/3600)` and
`r = f / (1.0/3600)` the remainder in seconds, in double arithmetic.  When
`f < 1.0/3600` nothing more follows.  When `f ≥ 1.0/3600` the remainder
satisfies `1 ≤ r < 3600`, and a single space and the label that `formatTime`
itself gives `r` follow: minutes with their own seconds part when `r ≥ 60`,
seconds otherwise.  In particular `formatTime(3661) = "1h 1m"` and
`formatTime(3750) = "1h 2m 30s"`.  Every depth bound of at least 3 gives the
result. -/
theorem formatTime_hours (n : ℕ) (t : ℚ) (hd : binary64 t = t) (h1 : 3600 ≤ t)
    (hfit : t < 3600 * 2 ^ 31) :
    formatTime.value t double_inv_3600 = ⌊t / 3600⌋
    ∧ (formatTime.fract t double_inv_3600 < double_inv_3600 →
        formatTime (n + 3) t = some (toString ⌊t / 3600⌋ ++ "h"))
    ∧ (double_inv_3600 ≤ formatTime.fract t double_inv_3600 →
        1 ≤ formatTime.remainder t double_inv_3600
        ∧ formatTime.remainder t double_inv_3600 < 3600
        ∧ ∃ s, formatTime (n + 2) (formatTime.remainder t double_inv_3600) = some s
            ∧ formatTime (n + 3) t = some (toString ⌊t / 3600⌋ ++ "h" ++ " " ++ s))
    ∧ formatTime (n + 3) 3661 = some "1h 1m"
    ∧ formatTime (n + 3) 3750 = some "1h 2m 30s" := by
  have hv := hours_value_eq_floor t hd h1 hfit
  refine ⟨hv, ?_, ?_, formatTime_fuel_add 3 n 3661 "1h 1m" (by decide!),
    formatTime_fuel_add 3 n 3750 "1h 2m 30s" (by decide!)⟩
  · intro hf
    rw [formatTime_hours_unfold (n + 2) t h1, formatTime_tail_part, if_neg (not_le.2 hf), hv]
  · intro hf
    obtain ⟨r1, r2⟩ := remainder_bounds t double_inv_3600 3600 double_inv_3600_pos
      remainder_3600_lt (scaled_hours_ge_one t h1) hf
    obtain ⟨s, hs⟩ := formatTime_below_hour_some n _ r1 r2
    refine ⟨r1, r2, s, hs, ?_⟩
    rw [formatTime_hours_unfold (n + 2) t h1, formatTime_tail_part, if_pos hf, hs,
      Option.map_some', String.append_assoc _ " " s, hv]

/-- The hypotheses of `formatTime_hours` hold at 3661 seconds, which is labelled
`"1h 1m"`. -/
theorem formatTime_hours_witness :
    binary64 3661 = 3661 ∧ (3600 : ℚ) ≤ 3661 ∧ (3661 : ℚ) < 3600 * 2 ^ 31
      ∧ formatTime 3 3661 = some "1h 1m" :=
  ⟨by decide!, by norm_num, by norm_num,
    (formatTime_hours 0 3661 (by decide!) (by norm_num) (by norm_num)).2.2.2.1⟩

end visualizer

/-! ## The time scale and the viewport (C8 to C10) -/

namespace visualizer


/-- C8: for every valid zoom (`zoom ≥ MinZoom = 10`, with `128 * zoom`
representable as a 32-bit `int`), in exact arithmetic the value of
`pixelsPerSecond()`, which is `PixelsPerSecond * zoom / DefaultZoom`, multiplied
by the ruler's `secondsPerPixel`, which is `DefaultZoom / (PixelsPerSecond * zoom)`,
is exactly 1. -/
theorem pixelsPerSecond_mul_secondsPerPixel (zoom : ℤ) (hz : MinZoom ≤ zoom)
    (_hfit : PixelsPerSecond * zoom < 2 ^ 31) :
    pixelsPerSecond id zoom = 128 * (zoom : ℚ) / 1000
    ∧ secondsPerPixel id zoom = 1000 / (128 * (zoom : ℚ))
    ∧ pixelsPerSecond id zoom * secondsPerPixel id zoom = 1 := by
  have hz0 : (zoom : ℚ) ≠ 0 := by
    have : (0 : ℤ) < zoom := lt_of_lt_of_le (by decide) hz
    exact_mod_cast this.ne'
  have h1 : pixelsPerSecond id zoom = 128 * (zoom : ℚ) / 1000 := by
    simp [pixelsPerSecond, PixelsPerSecond, DefaultZoom]
  have h2 : secondsPerPixel id zoom = 1000 / (128 * (zoom : ℚ)) := by
    simp [secondsPerPixel, PixelsPerSecond, DefaultZoom]
  refine ⟨h1, h2, ?_⟩
  rw [h1, h2]
  field_simp

/-- The hypotheses of `pixelsPerSecond_mul_secondsPerPixel` hold at the default
zoom 1000. -/
theorem pixelsPerSecond_mul_secondsPerPixel_witness :
    MinZoom ≤ 1000 ∧ PixelsPerSecond * 1000 < 2 ^ 31
      ∧ pixelsPerSecond id 1000 * secondsPerPixel id 1000 = 1 :=
  ⟨by decide, by decide,
    (pixelsPerSecond_mul_secondsPerPixel 1000 (by decide) (by decide)).2.2⟩

theorem setRange_spec (bar : QScrollBar) (lo hi : ℤ) :
    (bar.setRange lo hi).1.minimum = lo
    ∧ (bar.setRange lo hi).1.maximum = max lo hi
    ∧ (bar.setRange lo hi).1.visible = bar.visible
    ∧ (∀ v, (bar.setRange lo hi).2 = some v →
        v = (bar.setRange lo hi).1.value ∧ lo ≤ v ∧ v ≤ max lo hi)
    ∧ ((bar.setRange lo hi).2 = none →
        (bar.setRange lo hi).1.value = bar.value
        ∧ ((bar.minimum = lo ∧ bar.maximum = max lo hi)
            ∨ (lo ≤ bar.value ∧ bar.value ≤ max lo hi))) := by
  unfold QScrollBar.setRange
  simp only []
  split_ifs with h1 h2
  · refine ⟨rfl, rfl, rfl, fun v hv => by simp at hv, fun _ => ⟨rfl, Or.inr ?_⟩⟩
    omega
  · refine ⟨rfl, rfl, rfl, fun v hv => ?_, fun hn => by simp at hn⟩
    simp only [Option.some.injEq] at hv
    subst hv
    refine ⟨rfl, ?_, ?_⟩ <;> omega
  · have h3 : bar.minimum = lo ∧ bar.maximum = max lo hi := by
      constructor <;> omega
    exact ⟨h3.1, h3.2, rfl, fun v hv => by simp at hv, fun _ => ⟨rfl, Or.inl h3⟩⟩

end visualizer

namespace visualizer

theorem verticalBarChanged_spec (s : TimeLineView) (r : QScrollBar × Option ℤ) :
    (s.verticalBarChanged r).m_verticalScrollBar = r.1
    ∧ (s.verticalBarChanged r).m_offset.x = s.m_offset.x
    ∧ (r.2 = none → (s.verticalBarChanged r).m_offset.y = s.m_offset.y)
    ∧ (∀ v, r.2 = some v → (s.verticalBarChanged r).m_offset.y = v) := by
  unfold TimeLineView.verticalBarChanged
  cases h : r.2 with
  | none => simp
  | some v => simp [TimeLineView.onVerticalSliderChanged]

/-- The two range calls on the vertical bar, from a state whose vertical offset
is already in `[0, extraHeight]`: the offset stays there, also when a call
re-bounds the bar's value and the slot copies it into the offset. -/
theorem vertical_bar_calls_spec (s2 : TimeLineView) (extraHeight : ℤ) (hE : 0 < extraHeight)
    (hy2 : 0 ≤ s2.m_offset.y ∧ s2.m_offset.y ≤ extraHeight) :
    ((s2.verticalBarChanged (s2.m_verticalScrollBar.setMinimum 0)).verticalBarChanged
        ((s2.verticalBarChanged (s2.m_verticalScrollBar.setMinimum 0)).m_verticalScrollBar.setMaximum
          extraHeight)).m_offset.x = s2.m_offset.x
    ∧ 0 ≤ ((s2.verticalBarChanged (s2.m_verticalScrollBar.setMinimum 0)).verticalBarChanged
        ((s2.verticalBarChanged (s2.m_verticalScrollBar.setMinimum 0)).m_verticalScrollBar.setMaximum
          extraHeight)).m_offset.y
    ∧ ((s2.verticalBarChanged (s2.m_verticalScrollBar.setMinimum 0)).verticalBarChanged
        ((s2.verticalBarChanged (s2.m_verticalScrollBar.setMinimum 0)).m_verticalScrollBar.setMaximum
          extraHeight)).m_offset.y ≤ extraHeight
    ∧ ((s2.verticalBarChanged (s2.m_verticalScrollBar.setMinimum 0)).verticalBarChanged
        ((s2.verticalBarChanged (s2.m_verticalScrollBar.setMinimum 0)).m_verticalScrollBar.setMaximum
          extraHeight)).m_verticalScrollBar.minimum = 0
    ∧ ((s2.verticalBarChanged (s2.m_verticalScrollBar.setMinimum 0)).verticalBarChanged
        ((s2.verticalBarChanged (s2.m_verticalScrollBar.setMinimum 0)).m_verticalScrollBar.setMaximum
          extraHeight)).m_verticalScrollBar.maximum = extraHeight := by
  obtain ⟨a1, a2, _, a4, a5⟩ :=
    setRange_spec s2.m_verticalScrollBar 0 (max s2.m_verticalScrollBar.maximum 0)
  obtain ⟨b1, b2, b3, b4⟩ :=
    verticalBarChanged_spec s2 (s2.m_verticalScrollBar.setMinimum 0)
  generalize s2.verticalBarChanged (s2.m_verticalScrollBar.setMinimum 0) = s3 at *
  unfold QScrollBar.setMinimum at b1 b3 b4
  generalize s2.m_verticalScrollBar.setRange 0 (max s2.m_verticalScrollBar.maximum 0)
    = r1 at *
  have hmin3 : s3.m_verticalScrollBar.minimum = 0 := by rw [b1, a1]
  have hy3 : 0 ≤ s3.m_offset.y
      ∧ (s3.m_offset.y ≤ extraHeight
          ∨ (s3.m_offset.y = s3.m_verticalScrollBar.value
              ∧ s3.m_verticalScrollBar.value ≤ s3.m_verticalScrollBar.maximum)) := by
    cases h : r1.2 with
    | none => rw [b3 h]; exact ⟨hy2.1, Or.inl hy2.2⟩
    | some v =>
      obtain ⟨c1, c2, c3⟩ := a4 v h
      rw [b4 v h, b1, a2, ← c1]
      exact ⟨c2, Or.inr ⟨rfl, c3⟩⟩
  obtain ⟨d1, d2, _, d4, d5⟩ :=
    setRange_spec s3.m_verticalScrollBar (min s3.m_verticalScrollBar.minimum extraHeight)
      extraHeight
  obtain ⟨e1, e2, e3, e4⟩ :=
    verticalBarChanged_spec s3 (s3.m_verticalScrollBar.setMaximum extraHeight)
  generalize s3.verticalBarChanged (s3.m_verticalScrollBar.setMaximum extraHeight)
    = s4 at *
  unfold QScrollBar.setMaximum at e1 e3 e4
  generalize s3.m_verticalScrollBar.setRange
    (min s3.m_verticalScrollBar.minimum extraHeight) extraHeight = r2 at *
  rw [hmin3] at d1 d2 d4 d5
  have hlo : min 0 extraHeight = 0 := by omega
  rw [hlo] at d1 d2 d4 d5
  have hhi : max 0 extraHeight = extraHeight := by omega
  rw [hhi] at d2 d4 d5
  refine ⟨by rw [e2, b2], ?_, ?_, by rw [e1, d1], by rw [e1, d2]⟩
  · cases h : r2.2 with
    | none => rw [e3 h]; exact hy3.1
    | some v => rw [e4 v h]; exact (d4 v h).2.1
  · cases h : r2.2 with
    | none =>
      rw [e3 h]
      obtain ⟨f1, f2⟩ := d5 h
      rcases hy3.2 with g | ⟨g1, g2⟩
      · exact g
      · rcases f2 with ⟨_, f3⟩ | ⟨_, f3⟩
        · rw [g1]; omega
        · rw [g1]; exact f3
    | some v => rw [e4 v h]; exact (d4 v h).2.2

/-- The vertical block of `layout`: with a positive `extraHeight` the vertical
offset ends in `[0, extraHeight]` and the vertical bar's range is
`[0, extraHeight]`; otherwise the offset is 0. -/
theorem layout_vertical_spec (s : TimeLineView) (extraHeight : ℤ) :
    (layout.vertical s extraHeight).m_offset.x = s.m_offset.x
    ∧ (0 < extraHeight →
        0 ≤ (layout.vertical s extraHeight).m_offset.y
        ∧ (layout.vertical s extraHeight).m_offset.y ≤ extraHeight
        ∧ (layout.vertical s extraHeight).m_verticalScrollBar.minimum = 0
        ∧ (layout.vertical s extraHeight).m_verticalScrollBar.maximum = extraHeight)
    ∧ (extraHeight ≤ 0 → (layout.vertical s extraHeight).m_offset.y = 0) := by
  unfold layout.vertical
  by_cases hE : extraHeight > 0
  · rw [if_pos hE]
    simp only []
    obtain ⟨k1, k2, k3, k4, k5⟩ := vertical_bar_calls_spec
      { s with m_offset := ⟨s.m_offset.x, min (max s.m_offset.y 0) extraHeight⟩ }
      extraHeight hE (by constructor <;> simp only [] <;> omega)
    exact ⟨k1, fun _ => ⟨k2, k3, k4, k5⟩, fun h => absurd hE (by omega)⟩
  · rw [if_neg hE]
    exact ⟨rfl, fun h => absurd h hE, fun _ => rfl⟩

end visualizer

namespace visualizer

theorem horizontalBarChanged_spec (s : TimeLineView) (r : QScrollBar × Option ℤ) :
    (s.horizontalBarChanged r).m_reportHeightPx = s.m_reportHeightPx
    ∧ (s.horizontalBarChanged r).height = s.height
    ∧ (s.horizontalBarChanged r).m_verticalScrollBar = s.m_verticalScrollBar := by
  unfold TimeLineView.horizontalBarChanged
  cases h : r.2 with
  | none => simp
  | some v => simp [TimeLineView.onHorizontalSliderChanged]

/-- The horizontal block of `layout` leaves what `extraHeight` reads unchanged,
and with a report it ends with the offset in `[reportStartPx, reportEndPx]`. -/
theorem layout_horizontal_spec (s : TimeLineView) :
    (layout.horizontal s).m_reportHeightPx = s.m_reportHeightPx
    ∧ (layout.horizontal s).height = s.height
    ∧ ∀ report, s.m_report = some report →
        layout.reportStartPx s report ≤ layout.reportEndPx s report →
        layout.reportStartPx s report ≤ (layout.horizontal s).m_offset.x
        ∧ (layout.horizontal s).m_offset.x ≤ layout.reportEndPx s report := by
  unfold layout.horizontal
  cases hr : s.m_report with
  | none => exact ⟨rfl, rfl, fun report h => by simp at h⟩
  | some rep =>
    simp only []
    refine ⟨?_, ?_, ?_⟩
    · split_ifs
      · rfl
      · rw [(horizontalBarChanged_spec _ _).1, (horizontalBarChanged_spec _ _).1]
    · split_ifs
      · rfl
      · rw [(horizontalBarChanged_spec _ _).2.1, (horizontalBarChanged_spec _ _).2.1]
    · intro report h hle
      simp only [Option.some.injEq] at h
      subst h
      constructor <;> omega

theorem layout_extraHeight_horizontal (s : TimeLineView) :
    layout.extraHeight (layout.horizontal s) = layout.extraHeight s := by
  obtain ⟨h1, h2, _⟩ := layout_horizontal_spec s
  unfold layout.extraHeight
  rw [h1, h2]

theorem layout_offset_eq (s : TimeLineView) :
    (layout s).m_offset
      = (layout.vertical (layout.horizontal s) (layout.extraHeight s)).m_offset := by
  rw [← layout_extraHeight_horizontal s]
  rfl

theorem layout_verticalScrollBar_eq (s : TimeLineView) :
    (layout s).m_verticalScrollBar.minimum
        = (layout.vertical (layout.horizontal s) (layout.extraHeight s)).m_verticalScrollBar.minimum
    ∧ (layout s).m_verticalScrollBar.maximum
        = (layout.vertical (layout.horizontal s) (layout.extraHeight s)).m_verticalScrollBar.maximum
    ∧ (layout s).m_verticalScrollBar.visible = decide (layout.extraHeight s > 0) := by
  have e := layout_extraHeight_horizontal s
  refine ⟨?_, ?_, ?_⟩
  · rw [← e]; rfl
  · rw [← e]; rfl
  · rw [← e]; rfl

end visualizer

namespace visualizer

/-- The factor `1 + VisibleMargin / 2` of `layout` is the double 1.05. -/
theorem half_margin_factor : binary64 (1 + binary64 (VisibleMargin / 2)) = binary64 (105 / 100) := by
  decide!

/-- Counterexample to C10: with a report height of 100 pixels and a visible area
of height 0, the claim's bound `100 * (1 + VisibleMargin) - 0` is 110, but
`layout()` computes `extraHeight = 105` (the factor is `1 + VisibleMargin / 2`),
sets the vertical bar's maximum to 105 and clamps a vertical offset of 200 to 105. -/
theorem layout_extraHeight_not_full_margin :
    toInt (binary64 (binary64 ((exampleView.m_reportHeightPx : ℚ) * binary64 (1 + VisibleMargin))
        - ((exampleView.height - RulerHeight - RulerDistReport : ℤ) : ℚ))) = 110
      ∧ layout.extraHeight exampleView = 105
      ∧ (layout exampleView).m_verticalScrollBar.maximum = 105
      ∧ exampleView.m_offset.y = 200
      ∧ (layout exampleView).m_offset.y = 105 := by
  decide!

/-- C10, amended: for every report height and widget height, the bound
`extraHeight` of `layout()` is `totalReportHeight * (1 + VisibleMargin / 2) -
visibleAreaHeight` truncated to `int`, the factor being the double 1.05, with
`totalReportHeight = m_reportHeightPx` and `visibleAreaHeight` the widget height
minus `RulerHeight = 24` and `RulerDistReport = 12`.  When it is positive,
`layout()` leaves the vertical offset in `[0, extraHeight]`, gives the vertical
scroll bar the range `[0, extraHeight]` and shows it; when it is `≤ 0` the
vertical offset is forced to 0 and the vertical scroll bar is hidden. -/
theorem layout_extraHeight_half_margin (s : TimeLineView) :
    layout.extraHeight s
        = toInt (binary64 (binary64 ((s.m_reportHeightPx : ℚ) * binary64 (105 / 100))
            - ((s.height - 24 - 12 : ℤ) : ℚ)))
    ∧ (0 < layout.extraHeight s →
        0 ≤ (layout s).m_offset.y
        ∧ (layout s).m_offset.y ≤ layout.extraHeight s
        ∧ (layout s).m_verticalScrollBar.minimum = 0
        ∧ (layout s).m_verticalScrollBar.maximum = layout.extraHeight s
        ∧ (layout s).m_verticalScrollBar.visible = true)
    ∧ (layout.extraHeight s ≤ 0 →
        (layout s).m_offset.y = 0 ∧ (layout s).m_verticalScrollBar.visible = false) := by
  obtain ⟨_, v2, v3⟩ := layout_vertical_spec (layout.horizontal s) (layout.extraHeight s)
  obtain ⟨b1, b2, b3⟩ := layout_verticalScrollBar_eq s
  refine ⟨?_, fun h => ?_, fun h => ?_⟩
  · unfold layout.extraHeight
    rw [half_margin_factor]
    rfl
  · obtain ⟨w1, w2, w3, w4⟩ := v2 h
    rw [layout_offset_eq, b1, b2, b3]
    exact ⟨w1, w2, w3, w4, decide_eq_true h⟩
  · rw [layout_offset_eq, b3]
    exact ⟨v3 h, decide_eq_false (by omega)⟩

end visualizer

/-! ## The drawing pass and the layout pass (C11) -/

namespace visualizer

/-- `formatTime` returns a label for every duration with the depth bound 3. -/
theorem formatTime_total (t : ℚ) : ∃ s, formatTime 3 t = some s := by
  rcases lt_or_le t 1 with h | h
  · rw [formatTime]
    split_ifs
    · exact ⟨_, rfl⟩
    all_goals rw [formatTime_tail_plain]; exact ⟨_, rfl⟩
  · rcases lt_or_le t 3600 with h2 | h2
    · exact formatTime_below_hour_some 1 t h h2
    · rw [formatTime_hours_unfold 2 t h2, formatTime_tail_part]
      split_ifs with hf
      · obtain ⟨r1, r2⟩ := remainder_bounds t double_inv_3600 3600 double_inv_3600_pos
          remainder_3600_lt (scaled_hours_ge_one t h2) hf
        obtain ⟨s, hs⟩ := formatTime_below_hour_some 0 _ r1 r2
        rw [hs]
        exact ⟨_, rfl⟩
      · exact ⟨_, rfl⟩

mutual
/-- Drawing one record returns its height and restores `pos`. -/
theorem drawPerfometerRecord_spec (rand : ℕ → ℕ) (view : TimeLineView) :
    ∀ (record : Record) (st : DrawState),
      (drawPerfometerRecord rand view record st).1 = getRecordHeight record
        ∧ (drawPerfometerRecord rand view record st).2.pos = st.pos
  | .mk name timeStart timeEnd enclosed, st => by
    rw [drawPerfometerRecord, getRecordHeight, getRecordHeight_loop_eq_foldl]
    simp only []
    obtain ⟨h1, h2⟩ := drawPerfometerRecords_loop_spec rand view enclosed 0 _
    rw [h1, h2]
    constructor
    · ring
    · simp [DrawState.paint]
/-- The loop over a list of records accumulates the maximum of the heights and
leaves `pos` as it was. -/
theorem drawPerfometerRecords_loop_spec (rand : ℕ → ℕ) (view : TimeLineView) :
    ∀ (records : List Record) (depth : ℤ) (st : DrawState),
      (drawPerfometerRecords.loop rand view records depth st).1
          = List.foldl max depth (records.map getRecordHeight)
        ∧ (drawPerfometerRecords.loop rand view records depth st).2.pos = st.pos
  | [], depth, st => by
    rw [drawPerfometerRecords.loop]
    exact ⟨rfl, rfl⟩
  | record :: rest, depth, st => by
    rw [drawPerfometerRecords.loop]
    obtain ⟨h1, h2⟩ := drawPerfometerRecord_spec rand view record st
    obtain ⟨h3, h4⟩ := drawPerfometerRecords_loop_spec rand view rest
      (max (drawPerfometerRecord rand view record st).1 depth)
      (drawPerfometerRecord rand view record st).2
    rw [h3, h4, h1, h2, max_comm]
    exact ⟨rfl, rfl⟩
end

theorem drawPerfometerRecords_spec (rand : ℕ → ℕ) (view : TimeLineView)
    (records : List Record) (st : DrawState) :
    (drawPerfometerRecords rand view records st).1
        = ((records.map getRecordHeight).max?).getD 0
      ∧ (drawPerfometerRecords rand view records st).2.pos = st.pos := by
  obtain ⟨h1, h2⟩ := drawPerfometerRecords_loop_spec rand view records 0 st
  rw [drawPerfometerRecords, h1, h2, foldl_max_zero_eq]
  exact ⟨rfl, rfl⟩

theorem drawPerfometerReport_body_spec (rand : ℕ → ℕ) (view : TimeLineView)
    (it : ℕ × Thread) (st : DrawState) :
    (drawPerfometerReport.body rand view it st).pos.y
        = st.pos.y + ThreadTitleHeight
          + ((it.2.records.map getRecordHeight).max?).getD 0 * RecordHeight
      ∧ (drawPerfometerReport.body rand view it st).pos.x = st.pos.x := by
  have key : ∀ st4 : DrawState, st4.pos = ⟨st.pos.x, st.pos.y + ThreadTitleHeight⟩ →
      (drawPerfometerRecords rand view it.2.records st4).2.pos.y
          + (drawPerfometerRecords rand view it.2.records st4).1 * RecordHeight
          = st.pos.y + ThreadTitleHeight
            + ((it.2.records.map getRecordHeight).max?).getD 0 * RecordHeight
        ∧ (drawPerfometerRecords rand view it.2.records st4).2.pos.x = st.pos.x := by
    intro st4 h4
    obtain ⟨h1, h2⟩ := drawPerfometerRecords_spec rand view it.2.records st4
    rw [h1, h2, h4]
    exact ⟨rfl, rfl⟩
  refine key _ ?_
  rfl

theorem drawPerfometerReport_loop_spec (rand : ℕ → ℕ) (view : TimeLineView)
    (threads : List (ℕ × Thread)) (st : DrawState) (height : ℤ) :
    height + ((drawPerfometerReport.loop rand view threads st).pos.y - st.pos.y)
        = getReportHeight.threadsLoop threads height
      ∧ (drawPerfometerReport.loop rand view threads st).pos.x = st.pos.x := by
  induction threads generalizing st height with
  | nil => simp [drawPerfometerReport.loop, getReportHeight.threadsLoop]
  | cons it rest ih =>
    rw [drawPerfometerReport.loop, getReportHeight.threadsLoop, recordsLoop_eq_foldl,
      foldl_max_zero_eq]
    obtain ⟨b1, b2⟩ := drawPerfometerReport_body_spec rand view it st
    obtain ⟨i1, i2⟩ := ih (drawPerfometerReport.body rand view it st)
      (height + ThreadTitleHeight
        + ((it.2.records.map getRecordHeight).max?).getD 0 * RecordHeight)
    constructor
    · rw [← i1, b1]; ring
    · rw [i2, b2]

/-- C11: the drawing pass and the layout pass agree on heights.  For every record,
`drawPerfometerRecord` returns `getRecordHeight(record)` and leaves `pos` (so
`pos.y`) as on entry; for every list of records `drawPerfometerRecords` returns
the maximum of `getRecordHeight` over the list (0 for the empty list) and leaves
`pos` as on entry; for every report, `drawPerfometerReport` advances `pos.y` by
exactly `getReportHeight(report)`. -/
theorem draw_pass_agrees_with_layout (rand : ℕ → ℕ) (view : TimeLineView) (st : DrawState)
    (record : Record) (records : List Record) (report : PerfometerReport) :
    ((drawPerfometerRecord rand view record st).1 = getRecordHeight record
      ∧ (drawPerfometerRecord rand view record st).2.pos.y = st.pos.y)
    ∧ ((drawPerfometerRecords rand view records st).1
          = ((records.map getRecordHeight).max?).getD 0
        ∧ (drawPerfometerRecords rand view [] st).1 = 0
        ∧ (drawPerfometerRecords rand view records st).2.pos.y = st.pos.y)
    ∧ (drawPerfometerReport rand view report st).pos.y
        = st.pos.y + getReportHeight report := by
  obtain ⟨a1, a2⟩ := drawPerfometerRecord_spec rand view record st
  obtain ⟨b1, b2⟩ := drawPerfometerRecords_spec rand view records st
  refine ⟨⟨a1, by rw [a2]⟩, ⟨b1, rfl, by rw [b2]⟩, ?_⟩
  obtain ⟨c1, _⟩ := drawPerfometerReport_loop_spec rand view report.getThreads
    (({ st with randCalls := 0 } : DrawState).paint (PaintCommand.setFont "Helvetica" 10)) 0
  rw [getReportHeight, ← c1, drawPerfometerReport]
  simp only [DrawState.paint]
  ring

end visualizer
